import Mathlib

/-!
Verification development for `sync_periodical.py`, a one-way periodic
directory mirroring script.  The script compares a source and a destination
directory with `filecmp.dircmp` (optionally a subclass that compares file
contents), then walks the resulting diff tree and removes, copies or
rewrites destination entries.

The filesystem is modelled shallowly: a directory is a finite association
list from entry names to nodes, and every node records what the `os` layer
of the script can observe about it (stat type, size, mtime, permission bits,
byte content, symlink target and resolution).  Recursive traversals carry an
explicit numeric recursion budget, mirroring the bounded interpreter stack
that the script's own module docstring warns about; all theorems either hold
for every budget or assume the budget exceeds the tree depth.
-/

namespace SyncPeriodical

/-- A filesystem node as the script observes it through the `os` layer.
`file mtime perm content` is a regular file whose stat size is
`content.length`; `dir` is a directory with named entries; a symlink is
stored together with its readlink target and its fully resolved shape
(`symlinkFile`, `symlinkDir`), or as `symlinkDangling` when resolution
fails; `special` is an inode of any other stat type (fifo, socket, device);
`broken` is an entry on which `os.stat` and every other operation raises
(for example a permission error). -/
inductive FSNode where
  | file (mtime perm : Nat) (content : List Nat)
  | dir (entries : List (String × FSNode))
  | symlinkFile (target : String) (mtime perm : Nat) (content : List Nat)
  | symlinkDir (target : String) (entries : List (String × FSNode))
  | symlinkDangling (target : String)
  | special
  | broken

/-- A directory listing: the association of entry names to nodes that
`os.listdir` and per-entry stats reveal for one directory. -/
abbrev Listing := List (String × FSNode)

/-- Node stored under `name`, resolving like a path lookup inside the
directory (first matching entry). -/
def lookupNode (l : Listing) (name : String) : Option FSNode :=
  match l with
  | [] => none
  | e :: rest => if e.1 = name then some e.2 else lookupNode rest name

/-- Creation or overwrite of the entry `name` inside a directory. -/
def insertEntry (l : Listing) (name : String) (node : FSNode) : Listing :=
  match l with
  | [] => [(name, node)]
  | e :: rest => if e.1 = name then (name, node) :: rest else e :: insertEntry rest name node

/-- In-place replacement of an existing entry; a missing name leaves the
directory unchanged. -/
def updateEntry (l : Listing) (name : String) (node : FSNode) : Listing :=
  match l with
  | [] => []
  | e :: rest => if e.1 = name then (name, node) :: rest else e :: updateEntry rest name node

/-- Removal of the entry `name` (unlink or rmtree of a whole subtree). -/
def eraseEntry (l : Listing) (name : String) : Listing :=
  match l with
  | [] => []
  | e :: rest => if e.1 = name then rest else e :: eraseEntry rest name

/-- Rendering of `Path(dir, name)` / `os.path.join(dir, name)`. -/
def joinPath (dir name : String) : String := dir ++ "/" ++ name

/-- Lexicographic code-point order on character lists, the order in which
Python's `list.sort()` arranges entry-name strings. -/
def charListLe : List Char → List Char → Bool
  | [], _ => true
  | _ :: _, [] => false
  | a :: as, b :: bs =>
      if a.toNat < b.toNat then true
      else if b.toNat < a.toNat then false
      else charListLe as bs

/-- Order on entry names used by the sorting of `dircmp.phase0`. -/
def nameLe (a b : String) : Bool := charListLe a.data b.data

/-- Insertion into a weakly sorted list of names, used to model the
`left_list.sort()` and `right_list.sort()` calls of `dircmp.phase0`. -/
def insertSorted (x : String) : List String → List String
  | [] => [x]
  | y :: ys => if nameLe x y then x :: y :: ys else y :: insertSorted x ys

/-- Sorting of a name list (`list.sort()` in `dircmp.phase0`). -/
def sortNames (l : List String) : List String := l.foldr insertSorted []

/-- The `hide` list of `filecmp.dircmp`: `os.curdir` and `os.pardir`. -/
def hideNames : List String := [".", ".."]

/-- The `ignore` list the script passes when it constructs the comparison:
line 171 builds `DirCmp(args.src, args.dst, ignore=[])`, an explicit empty
list. -/
def scriptIgnore : List String := []

/-- `filecmp.DEFAULT_IGNORES`, the ignore list `dircmp` would use had the
script not passed `ignore=[]`.  The script never uses it; it is stated here
so theorems can speak about names that the library would skip by default. -/
def filecmpDefaultIgnores : List String :=
  ["RCS", "CVS", "tags", ".git", ".hg", ".bzr", "_darcs", "__pycache__"]

/-- Names of the entries of a directory, as `os.listdir` returns them. -/
def listdirNames (l : Listing) : List String := l.map Prod.fst

/-- `dircmp.phase0`: list a directory, drop the `hide + ignore` names and
sort the remainder. -/
def filteredSorted (l : Listing) : List String :=
  sortNames ((listdirNames l).filter (fun n => decide (¬ n ∈ hideNames ++ scriptIgnore)))

/-- Stat file type classes distinguished by `dircmp.phase2`
(`stat.S_IFMT`): regular file, directory, or anything else. -/
inductive StatType where
  | reg
  | dirT
  | other
deriving DecidableEq, Repr

/-- File type of `os.stat` (which follows symlinks); `none` models a raised
`OSError`. -/
def statTypeOf : FSNode → Option StatType
  | .file .. => some .reg
  | .symlinkFile .. => some .reg
  | .dir _ => some .dirT
  | .symlinkDir .. => some .dirT
  | .symlinkDangling _ => none
  | .special => some .other
  | .broken => none

/-- Stat signature `_sig` used by `filecmp.cmp`: file type, size and
modification time, following symlinks. -/
def fileSigOf : FSNode → Option (StatType × Nat × Nat)
  | .file mt _ c => some (.reg, c.length, mt)
  | .symlinkFile _ mt _ c => some (.reg, c.length, mt)
  | .dir _ => some (.dirT, 0, 0)
  | .symlinkDir _ _ => some (.dirT, 0, 0)
  | .symlinkDangling _ => none
  | .special => some (.other, 0, 0)
  | .broken => none

/-- Byte content a read of the (resolved) node returns; only consulted on
regular files. -/
def contentOf : FSNode → List Nat
  | .file _ _ c => c
  | .symlinkFile _ _ _ c => c
  | _ => []

/-- `filecmp.cmp(f1, f2, shallow)` as `cmpfiles` reaches it through `_cmp`:
both sides are statted; non-regular files compare unequal; with
`shallow=True` equal signatures short-circuit to equal; otherwise unequal
sizes compare unequal and equal sizes fall back to a byte comparison
(`_do_cmp`).  `none` models an `OSError`, which `_cmp` turns into the funny
bucket. -/
def filecmp_cmp (shallow : Bool) (a b : FSNode) : Option Bool :=
  match fileSigOf a, fileSigOf b with
  | some sa, some sb =>
      if sa.1 ≠ StatType.reg ∨ sb.1 ≠ StatType.reg then some false
      else if shallow = true ∧ sa = sb then some true
      else if sa.2.1 ≠ sb.2.1 then some false
      else some (decide (contentOf a = contentOf b))
  | _, _ => none

/-- Comparison of the common file `name` of two directories, as
`cmpfiles(left, right, common_files, shallow)` performs it. -/
def cmpAt (shallow : Bool) (l r : Listing) (name : String) : Option Bool :=
  match lookupNode l name, lookupNode r name with
  | some a, some b => filecmp_cmp shallow a b
  | _, _ => none

/-- Joint stat classification of a common name in `dircmp.phase2`: `some t`
when both sides stat successfully with the same type class `t`, `none` when
either stat raises or the types disagree. -/
def phase2Type (l r : Listing) (name : String) : Option StatType :=
  match (lookupNode l name).bind statTypeOf, (lookupNode r name).bind statTypeOf with
  | some ta, some tb => if ta = tb then some ta else none
  | _, _ => none

/-- The classification lists `filecmp.dircmp` computes for one pair of
directories (phases 0 to 3).  `byContents = true` embeds the script's
`DirCmpByContents` subclass, whose overriding `phase3` calls `cmpfiles`
with `shallow=False`; `byContents = false` embeds plain `dircmp`
(`shallow=True`). -/
structure LevelDiff where
  left_list : List String
  right_list : List String
  common : List String
  left_only : List String
  right_only : List String
  common_dirs : List String
  common_files : List String
  common_funny : List String
  same_files : List String
  diff_files : List String
  funny_files : List String

/-- One level of the directory comparison: phase0 lists and sorts, phase1
splits into common and one-side-only names, phase2 types the common names,
phase3 compares the common regular files per the active comparison mode. -/
def dircmp_level (byContents : Bool) (l r : Listing) : LevelDiff :=
  let ll := filteredSorted l
  let rl := filteredSorted r
  let common := ll.filter (fun n => decide (n ∈ rl))
  let left_only := ll.filter (fun n => decide (¬ n ∈ rl))
  let right_only := rl.filter (fun n => decide (¬ n ∈ ll))
  let common_dirs := common.filter (fun n => phase2Type l r n = some StatType.dirT)
  let common_files := common.filter (fun n => phase2Type l r n = some StatType.reg)
  let common_funny := common.filter (fun n =>
    decide (¬ phase2Type l r n = some StatType.dirT) &&
    decide (¬ phase2Type l r n = some StatType.reg))
  let same_files := common_files.filter (fun n => cmpAt (!byContents) l r n = some true)
  let diff_files := common_files.filter (fun n => cmpAt (!byContents) l r n = some false)
  let funny_files := common_files.filter (fun n => cmpAt (!byContents) l r n = none)
  ⟨ll, rl, common, left_only, right_only, common_dirs, common_files, common_funny,
    same_files, diff_files, funny_files⟩

/-- Observable actions of one mirroring pass: the log lines `mirror_dircmp`,
`remove_inodes` and `copy_inodes` emit and the filesystem calls they issue.
Mutating calls carry the directory and entry name exactly as the Python code
passes them (`Path(dst_dir, inode)` and friends); `copytreeOp` records the
keyword arguments of the `shutil.copytree` call and `copyfileOp` the
`follow_symlinks` argument of `shutil.copy2`. -/
inductive Event where
  | warnFunnyFiles (dir : String) (names : List String)
  | warnCommonFunny (dir : String) (names : List String)
  | logRemoveSet (dir : String) (names : List String)
  | logCopySet (dir : String) (names : List String)
  | logRewriteSet (dir : String) (names : List String)
  | logSubdirsSet (dir : String) (names : List String)
  | logSubdirEnter (src dst : String)
  | rmtreeOp (dstDir inode : String)
  | unlinkOp (dstDir inode : String)
  | removeError (dstDir inode : String)
  | copytreeOp (srcDir dstDir inode : String) (symlinks ignoreDangling dirsExistOk : Bool)
  | copyfileOp (srcDir dstDir inode : String) (followSymlinks : Bool)
  | copyError (srcDir dstDir inode : String)
deriving DecidableEq, Repr

/-- An event mutates the filesystem (issues a remove or copy call). -/
def isMutation : Event → Bool
  | .rmtreeOp .. => true
  | .unlinkOp .. => true
  | .copytreeOp .. => true
  | .copyfileOp .. => true
  | _ => false

/-- An event is a removal call (`shutil.rmtree` or `Path.unlink`). -/
def isRemoveOp : Event → Bool
  | .rmtreeOp .. => true
  | .unlinkOp .. => true
  | _ => false

/-- An event is a copy call (`shutil.copytree` or `shutil.copy2`). -/
def isCopyOp : Event → Bool
  | .copytreeOp .. => true
  | .copyfileOp .. => true
  | _ => false

/-- Entry name an operation or error event is about. -/
def eventInode : Event → Option String
  | .rmtreeOp _ i => some i
  | .unlinkOp _ i => some i
  | .removeError _ i => some i
  | .copytreeOp _ _ i _ _ _ => some i
  | .copyfileOp _ _ i _ => some i
  | .copyError _ _ i => some i
  | _ => none

/-- Entries visible behind a node when it is entered as a directory
(`os.scandir` / recursion target); follows a symlink to a directory. -/
def dirEntriesOf : FSNode → Option Listing
  | .dir es => some es
  | .symlinkDir _ es => some es
  | _ => none

/-- `Path.is_dir()`: follows symlinks, `False` when the stat fails. -/
def isDirNode (n : FSNode) : Bool := (dirEntriesOf n).isSome

/-- Writing a new entry list through a directory node: mutating inside a
symlinked directory mutates the link's target. -/
def setDirEntries : FSNode → Listing → FSNode
  | .dir _, es => .dir es
  | .symlinkDir t _, es => .symlinkDir t es
  | n, _ => n

/-- `remove_inodes` on a single name: `Path(dst_dir, inode).is_dir()` decides
between `shutil.rmtree(path, ignore_errors=True)` and
`path.unlink(missing_ok=True)`.  `rmtree` refuses to operate on a symlink to
a directory and `ignore_errors=True` swallows that `OSError`, so the entry
survives; a missing name is an accepted no-op (`rm -f` semantics); on a
`broken` entry the unlink raises and the surrounding `except` logs the
directory and the inode and moves on. -/
def removeInode1 (dstDir : String) (r : Listing) (inode : String) : Listing × List Event :=
  match lookupNode r inode with
  | some (.dir _) => (eraseEntry r inode, [.rmtreeOp dstDir inode])
  | some (.symlinkDir _ _) => (r, [.rmtreeOp dstDir inode])
  | some .broken => (r, [.unlinkOp dstDir inode, .removeError dstDir inode])
  | some _ => (eraseEntry r inode, [.unlinkOp dstDir inode])
  | none => (r, [.unlinkOp dstDir inode])

/-- `remove_inodes(dst_dir, inodes)`: remove every listed name from the
destination directory, one `try` block per name. -/
def remove_inodes (dstDir : String) (r : Listing) : List String → Listing × List Event
  | [] => (r, [])
  | i :: rest =>
      let s := removeInode1 dstDir r i
      let t := remove_inodes dstDir s.1 rest
      (t.1, s.2 ++ t.2)

/-- `shutil.copy2(src, dst, follow_symlinks=follow)` on the node at `src`:
copies content and then `copystat` (mtime and permission bits).  With
`follow_symlinks=False` a symlink is recreated as a symlink via
`os.symlink`, which raises `FileExistsError` when `dst` already exists; with
`follow_symlinks=True` the resolved target is copied and a dangling link
raises `FileNotFoundError`.  Directories and special files raise.  `none`
models a raised exception. -/
def copy2_model (follow dstExists : Bool) : FSNode → Option FSNode
  | .file mt pm c => some (.file mt pm c)
  | .symlinkFile t mt pm c =>
      if follow then some (.file mt pm c)
      else if dstExists then none
      else some (.symlinkFile t mt pm c)
  | .symlinkDir t es =>
      if follow then none
      else if dstExists then none
      else some (.symlinkDir t es)
  | .symlinkDangling t =>
      if follow then none
      else if dstExists then none
      else some (.symlinkDangling t)
  | .dir _ => none
  | .special => none
  | .broken => none

/-- `shutil.copytree(..., symlinks, ignore_dangling_symlinks)` over the
entries of a fresh destination directory: per entry, a symlink is recreated
(`symlinks=True`) or dereferenced (`symlinks=False`, where a dangling target
is skipped when `ignore_dangling_symlinks=True` and otherwise recorded as an
error), directories recurse, regular files go through `copy2`.  Errors are
collected per entry and reported at the end (`shutil.Error`), leaving the
successfully copied siblings in place; the boolean result records whether
any error was collected.  The numeric budget models the interpreter stack;
an exhausted budget counts as an error. -/
def copytree_model (symlinks ignoreDangling : Bool) : Nat → Listing → Listing × Bool
  | 0, _ => ([], true)
  | fuel + 1, es =>
      es.foldr
        (fun e acc =>
          match e.2 with
          | .file mt pm c => ((e.1, FSNode.file mt pm c) :: acc.1, acc.2)
          | .dir sub =>
              let s := copytree_model symlinks ignoreDangling fuel sub
              ((e.1, FSNode.dir s.1) :: acc.1, acc.2 || s.2)
          | .symlinkFile t mt pm c =>
              if symlinks then ((e.1, FSNode.symlinkFile t mt pm c) :: acc.1, acc.2)
              else ((e.1, FSNode.file mt pm c) :: acc.1, acc.2)
          | .symlinkDir t sub =>
              if symlinks then ((e.1, FSNode.symlinkDir t sub) :: acc.1, acc.2)
              else
                let s := copytree_model symlinks ignoreDangling fuel sub
                ((e.1, FSNode.dir s.1) :: acc.1, acc.2 || s.2)
          | .symlinkDangling t =>
              if symlinks then ((e.1, FSNode.symlinkDangling t) :: acc.1, acc.2)
              else if ignoreDangling then acc
              else (acc.1, true)
          | .special => (acc.1, true)
          | .broken => (acc.1, true))
        ([], false)

/-- `copy_inodes` on a single name: `Path(src_dir, inode).is_dir()` chooses
`shutil.copytree(path, Path(dst_dir, inode), symlinks=not follow_symlinks,
ignore_dangling_symlinks=True, dirs_exist_ok=True)` for directories and
`shutil.copy2(path, Path(dst_dir, inode), follow_symlinks=follow_symlinks)`
otherwise; any exception is logged with the source directory, the
destination directory and the inode.  Every reachable `copytree` call here
has an absent destination name (the names come from `left_only`), so the
destination directory is created fresh. -/
def copyInode1 (follow : Bool) (fuel : Nat) (srcDir dstDir : String)
    (l r : Listing) (inode : String) : Listing × List Event :=
  match lookupNode l inode with
  | none => (r, [.copyfileOp srcDir dstDir inode follow, .copyError srcDir dstDir inode])
  | some node =>
      match dirEntriesOf node with
      | some sub =>
          let s := copytree_model (!follow) true fuel sub
          (insertEntry r inode (.dir s.1),
            .copytreeOp srcDir dstDir inode (!follow) true true ::
              (if s.2 then [.copyError srcDir dstDir inode] else []))
      | none =>
          match copy2_model follow (lookupNode r inode).isSome node with
          | some node' => (insertEntry r inode node', [.copyfileOp srcDir dstDir inode follow])
          | none => (r, [.copyfileOp srcDir dstDir inode follow, .copyError srcDir dstDir inode])

/-- `copy_inodes(src_dir, dst_dir, inodes, follow_symlinks=...)`: copy every
listed name, one `try` block per name. -/
def copy_inodes (follow : Bool) (fuel : Nat) (srcDir dstDir : String)
    (l r : Listing) : List String → Listing × List Event
  | [] => (r, [])
  | i :: rest =>
      let s := copyInode1 follow fuel srcDir dstDir l r i
      let t := copy_inodes follow fuel srcDir dstDir l s.1 rest
      (t.1, s.2 ++ t.2)

/-- The `for subdir in dir_cmp.subdirs.values()` loop of `mirror_dircmp`:
for every common subdirectory name a child `dircmp` is built on the joined
paths and mirrored by the continuation `k`; the destination listing of the
child is read from the current (already partially mutated) destination, as
the lazy `dircmp` attributes do. -/
def mirrorSubdirs (k : String → String → Listing → Listing → Listing × List Event)
    (lp rp : String) (l : Listing) : List String → Listing × List Event → Listing × List Event
  | [], acc => acc
  | name :: rest, acc =>
      let step : Listing × List Event :=
        match lookupNode l name, lookupNode acc.1 name with
        | some ln, some rn =>
            match dirEntriesOf ln, dirEntriesOf rn with
            | some les, some res =>
                let sub := k (joinPath lp name) (joinPath rp name) les res
                (updateEntry acc.1 name (setDirEntries rn sub.1),
                  Event.logSubdirEnter (joinPath lp name) (joinPath rp name) :: sub.2)
            | _, _ => (acc.1, [])
        | _, _ => (acc.1, [])
      mirrorSubdirs k lp rp l rest (step.1, acc.2 ++ step.2)

/-- One level of `mirror_dircmp(dir_cmp, follow_symlinks=..., dry=...)`:
warn about funny entries, then (unless `dry`) remove `right_only`, copy
`left_only`, rewrite `diff_files`, and finally hand every common
subdirectory to the continuation `k` (the recursive `mirror_dircmp` call)
with the same options.  Returns the destination listing after the pass
together with the emitted events. -/
def mirrorLevel (byContents follow dry : Bool) (fuel : Nat)
    (k : String → String → Listing → Listing → Listing × List Event)
    (lp rp : String) (l r : Listing) : Listing × List Event :=
      let d := dircmp_level byContents l r
      let evW : List Event :=
        (if d.funny_files ≠ [] then [Event.warnFunnyFiles lp d.funny_files] else []) ++
        (if d.common_funny ≠ [] then [Event.warnCommonFunny lp d.common_funny] else [])
      let sR : Listing × List Event :=
        if d.right_only ≠ [] then
          let res := if !dry then remove_inodes rp r d.right_only else (r, [])
          (res.1, Event.logRemoveSet rp d.right_only :: res.2)
        else (r, [])
      let sL : Listing × List Event :=
        if d.left_only ≠ [] then
          let res := if !dry then copy_inodes follow fuel lp rp l sR.1 d.left_only else (sR.1, [])
          (res.1, Event.logCopySet lp d.left_only :: res.2)
        else (sR.1, [])
      let sD : Listing × List Event :=
        if d.diff_files ≠ [] then
          let res := if !dry then copy_inodes follow fuel lp rp l sL.1 d.diff_files else (sL.1, [])
          (res.1, Event.logRewriteSet lp d.diff_files :: res.2)
        else (sL.1, [])
      let sS : Listing × List Event :=
        if d.common_dirs ≠ [] then
          let res := mirrorSubdirs k lp rp l d.common_dirs (sD.1, [])
          (res.1, Event.logSubdirsSet lp d.common_dirs :: res.2)
        else (sD.1, [])
      (sS.1, evW ++ sR.2 ++ sL.2 ++ sD.2 ++ sS.2)

/-- `mirror_dircmp` tied to its own recursion: one interpreter stack frame
per directory level of the diff tree; at budget zero the recursion cannot
proceed (the `RecursionError` crash the module docstring warns about) and
the destination is left untouched. -/
def mirror_dircmp (byContents follow dry : Bool) :
    Nat → String → String → Listing → Listing → Listing × List Event
  | 0, _, _, _, r => (r, [])
  | fuel + 1, lp, rp, l, r =>
      mirrorLevel byContents follow dry fuel
        (fun a b x y => mirror_dircmp byContents follow dry fuel a b x y) lp rp l r

/-- Number of nested `mirror_dircmp` stack frames a diff tree requires: one
frame for the current level plus the deepest requirement among the common
subdirectories.  The script performs this recursion on the interpreter call
stack. -/
def mirrorCallDepth (byContents : Bool) : Nat → Listing → Listing → Nat
  | 0, _, _ => 0
  | fuel + 1, l, r =>
      let d := dircmp_level byContents l r
      1 + d.common_dirs.foldr
        (fun name acc =>
          match lookupNode l name, lookupNode r name with
          | some ln, some rn =>
              match dirEntriesOf ln, dirEntriesOf rn with
              | some les, some res => max acc (mirrorCallDepth byContents fuel les res)
              | _, _ => acc
          | _, _ => acc)
        0

/-- The interpreter recursion limit the module docstring of the script
quotes: `sys.setrecursionlimit(limit)` with `default 1000` (lines 7 to 10 of
the source). -/
def pythonDefaultRecursionLimit : Nat := 1000

/-- Whether the script ever calls `sys.setrecursionlimit`: it does not — the
module docstring only tells the operator that they can try raising the limit
by hand when deep nesting crashes the script. -/
def sysSetrecursionlimitCalled : Bool := false

/-- A chain of `n` nested directories, each containing one subdirectory
named `d`; mirroring it against itself recurses `n + 1` levels deep. -/
def chainDir : Nat → Listing
  | 0 => []
  | n + 1 => [("d", FSNode.dir (chainDir n))]

/-- Recursion-budgeted well-formedness of a directory tree as the
idempotence arguments need it: distinct entry names at every level and only
plain regular files and plain directories (no symlinks, special files or
unreadable entries), to depth below the budget. -/
def goodListing : Nat → Listing → Bool
  | 0, _ => false
  | fuel + 1, l =>
      decide ((listdirNames l).Nodup) &&
      l.all (fun e =>
        match e.2 with
        | .file .. => true
        | .dir es => goodListing fuel es
        | _ => false)

/-- Recursion-budgeted convergence invariant between a source listing and a
destination listing: every name listed on one side is listed on the other,
and each such name either carries directories on both sides whose contents
are recursively converged, carries regular files that the active comparison
mode reports as equal, or is a pair `dircmp.phase2` will park as funny
(type conflict or stat failure), which the executor only warns about. -/
def converged (byContents : Bool) : Nat → Listing → Listing → Bool
  | 0, _, _ => false
  | fuel + 1, l, m =>
      (filteredSorted l).all (fun n => decide (n ∈ filteredSorted m)) &&
      (filteredSorted m).all (fun n => decide (n ∈ filteredSorted l)) &&
      (filteredSorted l).all (fun n =>
        match phase2Type l m n with
        | some .dirT =>
            match (lookupNode l n).bind dirEntriesOf, (lookupNode m n).bind dirEntriesOf with
            | some les, some res => converged byContents fuel les res
            | _, _ => false
        | some .reg => cmpAt (!byContents) l m n = some true
        | some .other => true
        | none => true)

/-- A path as `pathlib.PurePath` stores it: the list of its components
(after the constructor has dropped single dots). -/
abbrev PyPath := List String

/-- `PurePath.parents`: the strict lexical ancestors of a path, nearest
first — every proper component prefix, down to the empty path. -/
def pathParents (p : PyPath) : List PyPath :=
  (List.range p.length).map (fun k => p.take k)

/-- Strict lexical ancestry between paths: `a` is a proper component prefix
of `b`, which is what `a in b.parents` tests in the script. -/
def strictAncestor (a b : PyPath) : Prop :=
  a.length < b.length ∧ a = b.take a.length

instance (a b : PyPath) : Decidable (strictAncestor a b) := by
  unfold strictAncestor; infer_instance

/-- Outcome of one compare-and-mirror pass as an input to the loop model:
the pass ran to completion, was interrupted by Ctrl-C
(`KeyboardInterrupt`), or raised an unexpected error. -/
inductive PassResult where
  | completes
  | cancelled
  | raises
deriving DecidableEq, Repr

/-- Observable result of running the script's `__main__` block. -/
inductive MainOutcome where
  | fatalConfig (msg : String)
  | exitCode (code : Nat)
  | runsForever
deriving DecidableEq, Repr

/-- Result of the `__main__` block together with whether any comparison or
mirroring pass was started at all. -/
structure MainRun where
  outcome : MainOutcome
  ranPass : Bool
deriving DecidableEq, Repr

/-- The script's `__main__` block after argument parsing (lines 129 to 184):
the nesting checks raise `SystemExit` with a message before any pass; then
the `while True` loop runs a pass and, with a zero interval, exits 0 after
the first completed pass, while a nonzero interval loops forever; a
`KeyboardInterrupt` exits 0 and any other exception exits 1. -/
def mainModel (src dst : PyPath) (interval : Nat) (pass1 : PassResult) : MainRun :=
  if src = dst then
    ⟨.fatalConfig "Argument error: src and dst must be different!", false⟩
  else if decide (src ∈ pathParents dst) then
    ⟨.fatalConfig "Argument error: dst must be outside src, otherwise the copy will loop endlessly!", false⟩
  else if decide (dst ∈ pathParents src) then
    ⟨.fatalConfig "Argument error: src must be outside dst, otherwise src will be broken!", false⟩
  else
    match pass1 with
    | .cancelled => ⟨.exitCode 0, true⟩
    | .raises => ⟨.exitCode 1, true⟩
    | .completes => if interval = 0 then ⟨.exitCode 0, true⟩ else ⟨.runsForever, true⟩

theorem sortNames_cons (x : String) (xs : List String) :
    sortNames (x :: xs) = insertSorted x (sortNames xs) := rfl

theorem mem_insertSorted {x a : String} {l : List String} :
    a ∈ insertSorted x l ↔ a = x ∨ a ∈ l := by
  induction l with
  | nil => simp [insertSorted]
  | cons y ys ih =>
      by_cases h : nameLe x y = true <;> simp [insertSorted, h, ih] <;> tauto

theorem mem_sortNames {a : String} {l : List String} : a ∈ sortNames l ↔ a ∈ l := by
  induction l with
  | nil => simp [sortNames]
  | cons x xs ih => rw [sortNames_cons, mem_insertSorted, ih]; simp

theorem mem_filteredSorted {a : String} {l : Listing} :
    a ∈ filteredSorted l ↔ a ∈ listdirNames l ∧ ¬ a ∈ hideNames ++ scriptIgnore := by
  simp [filteredSorted, mem_sortNames, List.mem_filter]

theorem lookupNode_eq_none_iff {l : Listing} {n : String} :
    lookupNode l n = none ↔ ¬ n ∈ listdirNames l := by
  induction l with
  | nil => simp [lookupNode, listdirNames]
  | cons e rest ih =>
      by_cases h : e.1 = n <;> simp [lookupNode, h, listdirNames] at ih ⊢ <;> tauto

theorem lookupNode_isSome_iff {l : Listing} {n : String} :
    (lookupNode l n).isSome = true ↔ n ∈ listdirNames l := by
  rcases h : lookupNode l n with _ | v
  · rw [lookupNode_eq_none_iff] at h; simp [h]
  · have : ¬ lookupNode l n = none := by simp [h]
    rw [lookupNode_eq_none_iff] at this; simp [h]; tauto

theorem mem_listdir_of_lookup {l : Listing} {n : String} {v : FSNode}
    (h : lookupNode l n = some v) : n ∈ listdirNames l := by
  rw [← lookupNode_isSome_iff, h]; rfl

theorem level_left_list (b : Bool) (l r : Listing) :
    (dircmp_level b l r).left_list = filteredSorted l := rfl

theorem level_right_list (b : Bool) (l r : Listing) :
    (dircmp_level b l r).right_list = filteredSorted r := rfl

theorem mem_level_left_only {b : Bool} {l r : Listing} {n : String} :
    n ∈ (dircmp_level b l r).left_only ↔ n ∈ filteredSorted l ∧ ¬ n ∈ filteredSorted r := by
  simp [dircmp_level, List.mem_filter]

theorem mem_level_right_only {b : Bool} {l r : Listing} {n : String} :
    n ∈ (dircmp_level b l r).right_only ↔ n ∈ filteredSorted r ∧ ¬ n ∈ filteredSorted l := by
  simp [dircmp_level, List.mem_filter]

theorem mem_level_common_dirs {b : Bool} {l r : Listing} {n : String} :
    n ∈ (dircmp_level b l r).common_dirs ↔
      (n ∈ filteredSorted l ∧ n ∈ filteredSorted r) ∧
        phase2Type l r n = some StatType.dirT := by
  simp only [dircmp_level, List.mem_filter, decide_eq_true_eq]

theorem mem_level_common_files {b : Bool} {l r : Listing} {n : String} :
    n ∈ (dircmp_level b l r).common_files ↔
      (n ∈ filteredSorted l ∧ n ∈ filteredSorted r) ∧
        phase2Type l r n = some StatType.reg := by
  simp only [dircmp_level, List.mem_filter, decide_eq_true_eq]

theorem mem_level_common_funny {b : Bool} {l r : Listing} {n : String} :
    n ∈ (dircmp_level b l r).common_funny ↔
      (n ∈ filteredSorted l ∧ n ∈ filteredSorted r) ∧
        ¬ phase2Type l r n = some StatType.dirT ∧
        ¬ phase2Type l r n = some StatType.reg := by
  simp only [dircmp_level, List.mem_filter, Bool.and_eq_true, decide_eq_true_eq]

theorem mem_level_same_files {b : Bool} {l r : Listing} {n : String} :
    n ∈ (dircmp_level b l r).same_files ↔
      ((n ∈ filteredSorted l ∧ n ∈ filteredSorted r) ∧
        phase2Type l r n = some StatType.reg) ∧
        cmpAt (!b) l r n = some true := by
  simp only [dircmp_level, List.mem_filter, decide_eq_true_eq]

theorem mem_level_diff_files {b : Bool} {l r : Listing} {n : String} :
    n ∈ (dircmp_level b l r).diff_files ↔
      ((n ∈ filteredSorted l ∧ n ∈ filteredSorted r) ∧
        phase2Type l r n = some StatType.reg) ∧
        cmpAt (!b) l r n = some false := by
  simp only [dircmp_level, List.mem_filter, decide_eq_true_eq]

theorem mem_level_funny_files {b : Bool} {l r : Listing} {n : String} :
    n ∈ (dircmp_level b l r).funny_files ↔
      ((n ∈ filteredSorted l ∧ n ∈ filteredSorted r) ∧
        phase2Type l r n = some StatType.reg) ∧
        cmpAt (!b) l r n = none := by
  simp only [dircmp_level, List.mem_filter, decide_eq_true_eq]

theorem level_union_helper (b : Bool) (l r : Listing) (n : String) :
    (n ∈ (dircmp_level b l r).left_list ∨ n ∈ (dircmp_level b l r).right_list) ↔
      (n ∈ (dircmp_level b l r).left_only ∨ n ∈ (dircmp_level b l r).right_only ∨
       n ∈ (dircmp_level b l r).same_files ∨ n ∈ (dircmp_level b l r).diff_files ∨
       n ∈ (dircmp_level b l r).funny_files ∨ n ∈ (dircmp_level b l r).common_funny ∨
       n ∈ (dircmp_level b l r).common_dirs) := by
  rw [level_left_list, level_right_list, mem_level_left_only, mem_level_right_only,
    mem_level_same_files, mem_level_diff_files, mem_level_funny_files,
    mem_level_common_funny, mem_level_common_dirs]
  by_cases hL : n ∈ filteredSorted l <;> by_cases hR : n ∈ filteredSorted r <;>
    simp [hL, hR]
  rcases h2 : phase2Type l r n with _ | t
  · simp
  · rcases t with _ | _ | _
    · rcases hc : cmpAt (!b) l r n with _ | bv
      · simp
      · rcases bv <;> simp
    · simp
    · simp

theorem level_disjoint_helper (b : Bool) (l r : Listing) :
    List.Pairwise (fun s t => ∀ n, n ∈ s → ¬ n ∈ t)
      [(dircmp_level b l r).left_only, (dircmp_level b l r).right_only,
       (dircmp_level b l r).same_files, (dircmp_level b l r).diff_files,
       (dircmp_level b l r).funny_files, (dircmp_level b l r).common_funny,
       (dircmp_level b l r).common_dirs] := by
  refine List.Pairwise.cons ?_ (List.Pairwise.cons ?_ (List.Pairwise.cons ?_
    (List.Pairwise.cons ?_ (List.Pairwise.cons ?_ (List.Pairwise.cons ?_
      (List.Pairwise.cons ?_ List.Pairwise.nil))))))
  all_goals intro t ht
  all_goals fin_cases ht
  all_goals intro n hn hn'
  all_goals
    simp only [mem_level_left_only, mem_level_right_only, mem_level_same_files,
      mem_level_diff_files, mem_level_funny_files, mem_level_common_funny,
      mem_level_common_dirs] at hn hn'
  all_goals simp_all

/-- C1, counterexample: the claim says the six sets `leftOnly`, `rightOnly`,
`sameEntries`, `diffEntries`, `funnyEntries`, `commonFunny` together cover
every entry name listed on either side.  With a directory `d` present on
both sides, `d` is listed on both sides yet lies in none of the six sets —
`dircmp.phase2` parks it in `common_dirs`, which feeds `commonSubdirs`
only. -/
theorem c1_counterexample :
    "d" ∈ (dircmp_level false [("d", FSNode.dir [])] [("d", FSNode.dir [])]).left_list ∧
    ¬ "d" ∈ (dircmp_level false [("d", FSNode.dir [])] [("d", FSNode.dir [])]).left_only ∧
    ¬ "d" ∈ (dircmp_level false [("d", FSNode.dir [])] [("d", FSNode.dir [])]).right_only ∧
    ¬ "d" ∈ (dircmp_level false [("d", FSNode.dir [])] [("d", FSNode.dir [])]).same_files ∧
    ¬ "d" ∈ (dircmp_level false [("d", FSNode.dir [])] [("d", FSNode.dir [])]).diff_files ∧
    ¬ "d" ∈ (dircmp_level false [("d", FSNode.dir [])] [("d", FSNode.dir [])]).funny_files ∧
    ¬ "d" ∈ (dircmp_level false [("d", FSNode.dir [])] [("d", FSNode.dir [])]).common_funny ∧
    "d" ∈ (dircmp_level false [("d", FSNode.dir [])] [("d", FSNode.dir [])]).common_dirs := by
  decide

/-- C1 (amended): at every level of the diff, the seven sets `leftOnly`,
`rightOnly`, `sameEntries`, `diffEntries`, `funnyEntries`, `commonFunny`
and the keys of `commonSubdirs` are pairwise disjoint and their union is
exactly the union of the entry names listed on the two sides; names that are
directories on both sides belong to the `commonSubdirs` component, not to
the six flat sets of the original claim. -/
theorem c1_partition_with_subdirs (byContents : Bool) (l r : Listing) :
    (∀ n, (n ∈ (dircmp_level byContents l r).left_list ∨
           n ∈ (dircmp_level byContents l r).right_list) ↔
        (n ∈ (dircmp_level byContents l r).left_only ∨
         n ∈ (dircmp_level byContents l r).right_only ∨
         n ∈ (dircmp_level byContents l r).same_files ∨
         n ∈ (dircmp_level byContents l r).diff_files ∨
         n ∈ (dircmp_level byContents l r).funny_files ∨
         n ∈ (dircmp_level byContents l r).common_funny ∨
         n ∈ (dircmp_level byContents l r).common_dirs)) ∧
    List.Pairwise (fun s t => ∀ n, n ∈ s → ¬ n ∈ t)
      [(dircmp_level byContents l r).left_only, (dircmp_level byContents l r).right_only,
       (dircmp_level byContents l r).same_files, (dircmp_level byContents l r).diff_files,
       (dircmp_level byContents l r).funny_files, (dircmp_level byContents l r).common_funny,
       (dircmp_level byContents l r).common_dirs] :=
  ⟨level_union_helper byContents l r, level_disjoint_helper byContents l r⟩

/-- C9, counterexample: in shallow mode (the default) two regular files of
equal size and equal content but different modification times are classified
`sameEntries`, although their type-size-mtime signatures differ —
`filecmp.cmp` falls back to a byte comparison when the signatures disagree
but the sizes match, so "same exactly when type, size and mtime match" is
false. -/
theorem c9_counterexample :
    "a" ∈ (dircmp_level false
        [("a", FSNode.file 1 7 [1, 2, 3])] [("a", FSNode.file 2 7 [1, 2, 3])]).same_files ∧
    ¬ fileSigOf (FSNode.file 1 7 [1, 2, 3]) = fileSigOf (FSNode.file 2 7 [1, 2, 3]) := by
  decide

/-- C9 (amended): for every common regular file at any level, the active
mode decides `sameEntries` against `diffEntries` through `filecmp.cmp`: in
shallow mode two regular files are same exactly when their type-size-mtime
signatures match (no content read) or, failing that, when their sizes match
and their byte contents are identical; in deep mode (`byContents`) exactly
when their byte contents are identical. -/
theorem c9_mode_semantics (byContents : Bool) (l r : Listing) (name : String)
    (hmem : name ∈ (dircmp_level byContents l r).common_files) :
    (name ∈ (dircmp_level byContents l r).same_files ↔
      cmpAt (!byContents) l r name = some true) ∧
    (name ∈ (dircmp_level byContents l r).diff_files ↔
      cmpAt (!byContents) l r name = some false) ∧
    (∀ mt pm c mt' pm' c',
      (filecmp_cmp true (FSNode.file mt pm c) (FSNode.file mt' pm' c') = some true ↔
        ((mt = mt' ∧ c.length = c'.length) ∨ c = c')) ∧
      (filecmp_cmp false (FSNode.file mt pm c) (FSNode.file mt' pm' c') = some true ↔
        c = c')) := by
  rw [mem_level_common_files] at hmem
  refine ⟨?_, ?_, ?_⟩
  · rw [mem_level_same_files]; tauto
  · rw [mem_level_diff_files]; tauto
  · intro mt pm c mt' pm' c'
    constructor
    · simp only [filecmp_cmp, fileSigOf, contentOf]
      by_cases h1 : c.length = c'.length <;> by_cases h2 : mt = mt' <;>
        by_cases h3 : c = c' <;> simp_all
    · simp only [filecmp_cmp, fileSigOf, contentOf]
      by_cases h1 : c.length = c'.length <;> by_cases h3 : c = c' <;> simp_all

/-- C9 witness: the mode-semantics theorem applied to a concrete pair of
one-entry directories. -/
theorem c9_mode_semantics_witness :
    "a" ∈ (dircmp_level false
        [("a", FSNode.file 1 7 [1, 2, 3])] [("a", FSNode.file 5 7 [9, 9, 9])]).same_files ↔
      cmpAt true [("a", FSNode.file 1 7 [1, 2, 3])] [("a", FSNode.file 5 7 [9, 9, 9])] "a" =
        some true :=
  (c9_mode_semantics false [("a", FSNode.file 1 7 [1, 2, 3])]
    [("a", FSNode.file 5 7 [9, 9, 9])] "a" (by decide)).1

/-- C10: the comparison is built with an explicit empty ignore list
(`ignore=[]` on line 171), so apart from the hidden names `.` and `..`
every entry name listed on either side participates in the classification —
including every name of `filecmp.DEFAULT_IGNORES` (such as `.git`, `RCS`,
`CVS`), none of which is hidden. -/
theorem c10_empty_ignore_list (byContents : Bool) (l r : Listing) (name : String)
    (hmem : name ∈ listdirNames l ∨ name ∈ listdirNames r)
    (hhide : ¬ name ∈ hideNames) :
    scriptIgnore = [] ∧
    (∀ x, x ∈ filecmpDefaultIgnores → ¬ x ∈ hideNames) ∧
    (name ∈ (dircmp_level byContents l r).left_only ∨
     name ∈ (dircmp_level byContents l r).right_only ∨
     name ∈ (dircmp_level byContents l r).same_files ∨
     name ∈ (dircmp_level byContents l r).diff_files ∨
     name ∈ (dircmp_level byContents l r).funny_files ∨
     name ∈ (dircmp_level byContents l r).common_funny ∨
     name ∈ (dircmp_level byContents l r).common_dirs) := by
  refine ⟨rfl, by decide, ?_⟩
  refine (level_union_helper byContents l r name).mp ?_
  rw [level_left_list, level_right_list]
  rcases hmem with h | h
  · exact Or.inl (mem_filteredSorted.mpr ⟨h, by simp [hideNames, scriptIgnore] at hhide ⊢; exact hhide⟩)
  · exact Or.inr (mem_filteredSorted.mpr ⟨h, by simp [hideNames, scriptIgnore] at hhide ⊢; exact hhide⟩)

/-- C10 witness: a `.git` directory present only in the source participates
in the classification (it lands in `leftOnly`). -/
theorem c10_empty_ignore_list_witness :
    ".git" ∈ (dircmp_level false [(".git", FSNode.dir [])] []).left_only ∨
    ".git" ∈ (dircmp_level false [(".git", FSNode.dir [])] []).right_only ∨
    ".git" ∈ (dircmp_level false [(".git", FSNode.dir [])] []).same_files ∨
    ".git" ∈ (dircmp_level false [(".git", FSNode.dir [])] []).diff_files ∨
    ".git" ∈ (dircmp_level false [(".git", FSNode.dir [])] []).funny_files ∨
    ".git" ∈ (dircmp_level false [(".git", FSNode.dir [])] []).common_funny ∨
    ".git" ∈ (dircmp_level false [(".git", FSNode.dir [])] []).common_dirs :=
  (c10_empty_ignore_list false [(".git", FSNode.dir [])] [] ".git"
    (by decide) (by decide)).2.2

theorem mem_pathParents {q p : PyPath} :
    q ∈ pathParents p ↔ ∃ k, k < p.length ∧ q = p.take k := by
  simp only [pathParents, List.mem_map, List.mem_range]
  constructor
  · rintro ⟨k, hk, rfl⟩; exact ⟨k, hk, rfl⟩
  · rintro ⟨k, hk, rfl⟩; exact ⟨k, hk, rfl⟩

theorem strictAncestor_iff_mem_parents (a b : PyPath) :
    strictAncestor a b ↔ a ∈ pathParents b := by
  rw [mem_pathParents]
  constructor
  · rintro ⟨hlen, heq⟩; exact ⟨a.length, hlen, heq⟩
  · rintro ⟨k, hk, rfl⟩
    have hl : (b.take k).length = k := List.length_take_of_le (Nat.le_of_lt hk)
    exact ⟨by rw [hl]; exact hk, by rw [hl]⟩

/-- C7: the script refuses equal or lexically nested source and destination
paths with a fatal `SystemExit` before any pass runs; with a valid pair the
process exits 0 after a completed run-once pass (interval zero) or on
cancellation, and exits 1 when the pass raises. -/
theorem c7_validation_and_exit (src dst : PyPath) (interval : Nat) (pass1 : PassResult) :
    ((src = dst ∨ strictAncestor src dst ∨ strictAncestor dst src) →
      ((∃ msg, (mainModel src dst interval pass1).outcome = MainOutcome.fatalConfig msg) ∧
        (mainModel src dst interval pass1).ranPass = false)) ∧
    (¬ (src = dst ∨ strictAncestor src dst ∨ strictAncestor dst src) →
      ((mainModel src dst interval pass1).ranPass = true ∧
       (pass1 = PassResult.cancelled →
         (mainModel src dst interval pass1).outcome = MainOutcome.exitCode 0) ∧
       (pass1 = PassResult.raises →
         (mainModel src dst interval pass1).outcome = MainOutcome.exitCode 1) ∧
       (pass1 = PassResult.completes → interval = 0 →
         (mainModel src dst interval pass1).outcome = MainOutcome.exitCode 0))) := by
  have h1 := strictAncestor_iff_mem_parents src dst
  have h2 := strictAncestor_iff_mem_parents dst src
  unfold mainModel
  by_cases e1 : src = dst
  · simp [e1]
  · by_cases e2 : src ∈ pathParents dst
    · simp [e1, e2, h1, h2]
    · by_cases e3 : dst ∈ pathParents src
      · simp [e1, e2, e3, h1, h2]
      · have n2 : ¬ strictAncestor src dst := fun h => e2 (h1.mp h)
        have n3 : ¬ strictAncestor dst src := fun h => e3 (h2.mp h)
        rcases pass1 with _ | _ | _ <;> by_cases hi : interval = 0 <;>
          simp [e1, e2, e3, n2, n3, hi]

/-- C7 witness: a destination nested inside the source is rejected before
any pass, and a valid disjoint pair with interval zero exits 0. -/
theorem c7_validation_and_exit_witness :
    ((∃ msg, (mainModel ["top"] ["top", "sub"] 0 PassResult.completes).outcome =
        MainOutcome.fatalConfig msg) ∧
      (mainModel ["top"] ["top", "sub"] 0 PassResult.completes).ranPass = false) ∧
    (mainModel ["a"] ["b"] 0 PassResult.completes).outcome = MainOutcome.exitCode 0 := by
  constructor
  · exact (c7_validation_and_exit ["top"] ["top", "sub"] 0 PassResult.completes).1
      (Or.inr (Or.inl (by decide)))
  · exact ((c7_validation_and_exit ["a"] ["b"] 0 PassResult.completes).2
      (by rw [not_or]; refine ⟨by decide, ?_⟩; rw [not_or]; exact ⟨by decide, by decide⟩)).2.2.2
      rfl rfl

theorem mirrorCallDepth_chain_helper (b : Bool) :
    ∀ n fuel, n < fuel →
      mirrorCallDepth b fuel (chainDir n) (chainDir n) = n + 1 := by
  intro n
  induction n with
  | zero =>
      intro fuel hf
      cases fuel with
      | zero => omega
      | succ f => rfl
  | succ n ih =>
      intro fuel hf
      cases fuel with
      | zero => omega
      | succ f =>
          have step : mirrorCallDepth b (f + 1) (chainDir (n + 1)) (chainDir (n + 1)) =
              1 + max 0 (mirrorCallDepth b f (chainDir n) (chainDir n)) := rfl
          rw [step, ih f (by omega)]
          omega

/-- C2, counterexample: the diff-tree traversal of `mirror_dircmp` needs one
interpreter stack frame per nesting level, the script never calls
`sys.setrecursionlimit`, and on a 1100-deep chain of directories the
required depth 1101 exceeds the default interpreter recursion limit of 1000
that the module docstring itself quotes — so the traversal does depend on
the bounded default call stack. -/
theorem c2_counterexample :
    sysSetrecursionlimitCalled = false ∧
    pythonDefaultRecursionLimit = 1000 ∧
    pythonDefaultRecursionLimit <
      mirrorCallDepth false 1200 (chainDir 1100) (chainDir 1100) := by
  refine ⟨rfl, rfl, ?_⟩
  rw [mirrorCallDepth_chain_helper false 1100 1200 (by omega)]
  decide

/-- C2 (amended): the mirroring recursion is a plain interpreter-stack
recursion whose frame count grows linearly with the directory nesting depth
(a chain of `n` nested directories needs `n + 1` frames), and the script
never raises the interpreter recursion limit; its module docstring instead
warns that deep nesting can crash the script and tells the operator to raise
the limit by hand. -/
theorem c2_stack_depth_grows_with_nesting (b : Bool) (n fuel : Nat) (h : n < fuel) :
    mirrorCallDepth b fuel (chainDir n) (chainDir n) = n + 1 ∧
      sysSetrecursionlimitCalled = false :=
  ⟨mirrorCallDepth_chain_helper b n fuel h, rfl⟩

/-- C2 witness: the chain-depth theorem evaluated on a chain of three nested
directories. -/
theorem c2_stack_depth_grows_with_nesting_witness :
    mirrorCallDepth false 5 (chainDir 3) (chainDir 3) = 4 ∧
      sysSetrecursionlimitCalled = false :=
  c2_stack_depth_grows_with_nesting false 3 5 (by omega)

theorem setDirEntries_self {rn : FSNode} {res : Listing}
    (h : dirEntriesOf rn = some res) : setDirEntries rn res = rn := by
  cases rn <;> simp [dirEntriesOf] at h <;> simp [setDirEntries, h]

theorem updateEntry_self {m : Listing} {n : String} {v : FSNode}
    (h : lookupNode m n = some v) : updateEntry m n v = m := by
  induction m with
  | nil => simp [lookupNode] at h
  | cons e rest ih =>
      by_cases he : e.1 = n
      · subst he
        simp [lookupNode] at h
        subst h
        simp [updateEntry]
      · simp [lookupNode, he] at h
        simp [updateEntry, he, ih h]

theorem mirrorSubdirs_dry (k : String → String → Listing → Listing → Listing × List Event)
    (hk : ∀ a b x y, (k a b x y).1 = y ∧ (k a b x y).2.filter isMutation = [])
    (lp rp : String) (l : Listing) :
    ∀ (names : List String) (acc : Listing × List Event),
      (mirrorSubdirs k lp rp l names acc).1 = acc.1 ∧
      (mirrorSubdirs k lp rp l names acc).2.filter isMutation =
        acc.2.filter isMutation := by
  intro names
  induction names with
  | nil => intro acc; exact ⟨rfl, rfl⟩
  | cons name rest ih =>
      intro acc
      simp only [mirrorSubdirs]
      rcases hl : lookupNode l name with _ | ln
      · dsimp only
        first
          | exact ih acc
          | (simp only [List.append_nil, Prod.mk.eta]; exact ih acc)
      · rcases hr : lookupNode acc.1 name with _ | rn
        · dsimp only
          first
            | exact ih acc
            | (simp only [List.append_nil, Prod.mk.eta]; exact ih acc)
        · dsimp only
          rcases hle : dirEntriesOf ln with _ | les
          · dsimp only
            first
              | exact ih acc
              | (simp only [List.append_nil, Prod.mk.eta]; exact ih acc)
          · rcases hre : dirEntriesOf rn with _ | res
            · dsimp only
              first
                | exact ih acc
                | (simp only [List.append_nil, Prod.mk.eta]; exact ih acc)
            · dsimp only
              have hupd : updateEntry acc.1 name
                  (setDirEntries rn (k (joinPath lp name) (joinPath rp name) les res).1) =
                    acc.1 := by
                rw [(hk (joinPath lp name) (joinPath rp name) les res).1,
                  setDirEntries_self hre, updateEntry_self hr]
              rw [hupd]
              have hrec := ih (acc.1,
                acc.2 ++ (Event.logSubdirEnter (joinPath lp name) (joinPath rp name) ::
                  (k (joinPath lp name) (joinPath rp name) les res).2))
              refine ⟨hrec.1, ?_⟩
              rw [hrec.2]
              simp [List.filter_append, isMutation,
                (hk (joinPath lp name) (joinPath rp name) les res).2]

set_option maxRecDepth 8000 in
theorem mirrorLevel_dry (byContents follow : Bool) (fuel : Nat)
    (k : String → String → Listing → Listing → Listing × List Event)
    (hk : ∀ a b x y, (k a b x y).1 = y ∧ (k a b x y).2.filter isMutation = [])
    (lp rp : String) (l r : Listing) :
    (mirrorLevel byContents follow true fuel k lp rp l r).1 = r ∧
    (mirrorLevel byContents follow true fuel k lp rp l r).2.filter isMutation = [] := by
  obtain ⟨hs1, hs2⟩ :=
    mirrorSubdirs_dry k hk lp rp l (dircmp_level byContents l r).common_dirs (r, ([] : List Event))
  by_cases h1 : (dircmp_level byContents l r).funny_files = [] <;>
    by_cases h2 : (dircmp_level byContents l r).common_funny = [] <;>
    by_cases h3 : (dircmp_level byContents l r).right_only = [] <;>
    by_cases h4 : (dircmp_level byContents l r).left_only = [] <;>
    by_cases h5 : (dircmp_level byContents l r).diff_files = [] <;>
    by_cases h6 : (dircmp_level byContents l r).common_dirs = [] <;>
    simp [mirrorLevel, h1, h2, h3, h4, h5, h6, hs1, hs2, isMutation, List.filter_append]

theorem mirror_dircmp_succ (byContents follow dry : Bool) (fuel : Nat)
    (lp rp : String) (l r : Listing) :
    mirror_dircmp byContents follow dry (fuel + 1) lp rp l r =
      mirrorLevel byContents follow dry fuel
        (fun a b x y => mirror_dircmp byContents follow dry fuel a b x y) lp rp l r := rfl

/-- C5: a dry-run pass mutates nothing: for every recursion budget, every
comparison mode and every pair of trees, `mirror_dircmp` with `dry=True`
returns the destination listing unchanged and its event trace contains no
filesystem-mutating call at any level (the source listing is never written
by any code path of the executor).  Classification and logging still
happen. -/
theorem c5_dry_run_is_pure (byContents follow : Bool) (fuel : Nat) (lp rp : String)
    (l r : Listing) :
    (mirror_dircmp byContents follow true fuel lp rp l r).1 = r ∧
    (mirror_dircmp byContents follow true fuel lp rp l r).2.filter isMutation = [] := by
  induction fuel generalizing lp rp l r with
  | zero => exact ⟨rfl, rfl⟩
  | succ fuel ih =>
      rw [mirror_dircmp_succ]
      exact mirrorLevel_dry byContents follow fuel _ (fun a b x y => ih a b x y) lp rp l r

theorem removeInode1_event_shape (dstDir : String) (r : Listing) (i : String) :
    ∀ e ∈ (removeInode1 dstDir r i).2,
      e = Event.rmtreeOp dstDir i ∨ e = Event.unlinkOp dstDir i ∨
        e = Event.removeError dstDir i := by
  rcases h : lookupNode r i with _ | n
  · simp [removeInode1, h]
  · cases n <;> simp [removeInode1, h]

theorem remove_inodes_event_shape (dstDir : String) :
    ∀ (inodes : List String) (r : Listing),
      ∀ e ∈ (remove_inodes dstDir r inodes).2,
        ∃ i ∈ inodes, e = Event.rmtreeOp dstDir i ∨ e = Event.unlinkOp dstDir i ∨
          e = Event.removeError dstDir i := by
  intro inodes
  induction inodes with
  | nil => intro r e he; simp [remove_inodes] at he
  | cons i rest ih =>
      intro r e he
      simp only [remove_inodes, List.mem_append] at he
      rcases he with he | he
      · exact ⟨i, by simp, removeInode1_event_shape dstDir r i e he⟩
      · obtain ⟨i', hi', hsh⟩ := ih (removeInode1 dstDir r i).1 e he
        exact ⟨i', by simp [hi'], hsh⟩

theorem remove_inodes_coverage (dstDir : String) :
    ∀ (inodes : List String) (r : Listing), ∀ i ∈ inodes,
      ∃ e ∈ (remove_inodes dstDir r inodes).2,
        isRemoveOp e = true ∧ eventInode e = some i := by
  intro inodes
  induction inodes with
  | nil => intro r i hi; simp at hi
  | cons j rest ih =>
      intro r i hi
      rcases List.mem_cons.mp hi with rfl | hi'
      · rcases h : lookupNode r i with _ | n
        · exact ⟨Event.unlinkOp dstDir i, by simp [remove_inodes, removeInode1, h],
            by simp [isRemoveOp], by simp [eventInode]⟩
        · cases n with
          | dir es =>
              exact ⟨Event.rmtreeOp dstDir i, by simp [remove_inodes, removeInode1, h],
                by simp [isRemoveOp], by simp [eventInode]⟩
          | symlinkDir t es =>
              exact ⟨Event.rmtreeOp dstDir i, by simp [remove_inodes, removeInode1, h],
                by simp [isRemoveOp], by simp [eventInode]⟩
          | file mt pm c =>
              exact ⟨Event.unlinkOp dstDir i, by simp [remove_inodes, removeInode1, h],
                by simp [isRemoveOp], by simp [eventInode]⟩
          | symlinkFile t mt pm c =>
              exact ⟨Event.unlinkOp dstDir i, by simp [remove_inodes, removeInode1, h],
                by simp [isRemoveOp], by simp [eventInode]⟩
          | symlinkDangling t =>
              exact ⟨Event.unlinkOp dstDir i, by simp [remove_inodes, removeInode1, h],
                by simp [isRemoveOp], by simp [eventInode]⟩
          | special =>
              exact ⟨Event.unlinkOp dstDir i, by simp [remove_inodes, removeInode1, h],
                by simp [isRemoveOp], by simp [eventInode]⟩
          | broken =>
              exact ⟨Event.unlinkOp dstDir i, by simp [remove_inodes, removeInode1, h],
                by simp [isRemoveOp], by simp [eventInode]⟩
      · obtain ⟨e, he, hop, hin⟩ := ih (removeInode1 dstDir r j).1 i hi'
        exact ⟨e, by simp [remove_inodes, List.mem_append]; exact Or.inr he, hop, hin⟩

theorem copyInode1_event_shape (follow : Bool) (fuel : Nat) (srcDir dstDir : String)
    (l r : Listing) (i : String) :
    ∀ e ∈ (copyInode1 follow fuel srcDir dstDir l r i).2,
      e = Event.copytreeOp srcDir dstDir i (!follow) true true ∨
        e = Event.copyfileOp srcDir dstDir i follow ∨
        e = Event.copyError srcDir dstDir i := by
  rcases h : lookupNode l i with _ | n
  · simp [copyInode1, h]
  · rcases hd : dirEntriesOf n with _ | sub
    · rcases hc : copy2_model follow (lookupNode r i).isSome n with _ | n' <;>
        simp [copyInode1, h, hd, hc]
    · rcases hs : (copytree_model (!follow) true fuel sub).2 <;>
        simp [copyInode1, h, hd, hs]

theorem copy_inodes_event_shape (follow : Bool) (fuel : Nat) (srcDir dstDir : String)
    (l : Listing) :
    ∀ (inodes : List String) (r : Listing),
      ∀ e ∈ (copy_inodes follow fuel srcDir dstDir l r inodes).2,
        ∃ i ∈ inodes, e = Event.copytreeOp srcDir dstDir i (!follow) true true ∨
          e = Event.copyfileOp srcDir dstDir i follow ∨
          e = Event.copyError srcDir dstDir i := by
  intro inodes
  induction inodes with
  | nil => intro r e he; simp [copy_inodes] at he
  | cons i rest ih =>
      intro r e he
      simp only [copy_inodes, List.mem_append] at he
      rcases he with he | he
      · exact ⟨i, by simp, copyInode1_event_shape follow fuel srcDir dstDir l r i e he⟩
      · obtain ⟨i', hi', hsh⟩ := ih (copyInode1 follow fuel srcDir dstDir l r i).1 e he
        exact ⟨i', by simp [hi'], hsh⟩

theorem copyInode1_head_event (follow : Bool) (fuel : Nat) (srcDir dstDir : String)
    (l r : Listing) (i : String) :
    ∃ rest, (copyInode1 follow fuel srcDir dstDir l r i).2 =
      (if ((lookupNode l i).bind dirEntriesOf).isNone
        then Event.copyfileOp srcDir dstDir i follow
        else Event.copytreeOp srcDir dstDir i (!follow) true true) :: rest := by
  rcases h : lookupNode l i with _ | n
  · exact ⟨[Event.copyError srcDir dstDir i], by simp [copyInode1, h]⟩
  · rcases hd : dirEntriesOf n with _ | sub
    · rcases hc : copy2_model follow (lookupNode r i).isSome n with _ | n'
      · exact ⟨[Event.copyError srcDir dstDir i], by simp [copyInode1, h, hd, hc]⟩
      · exact ⟨[], by simp [copyInode1, h, hd, hc]⟩
    · refine ⟨if (copytree_model (!follow) true fuel sub).2 then
        [Event.copyError srcDir dstDir i] else [], ?_⟩
      rcases hs : (copytree_model (!follow) true fuel sub).2 <;>
        simp [copyInode1, h, hd, hs]

theorem copy_inodes_coverage (follow : Bool) (fuel : Nat) (srcDir dstDir : String)
    (l : Listing) :
    ∀ (inodes : List String) (r : Listing), ∀ i ∈ inodes,
      ∃ e ∈ (copy_inodes follow fuel srcDir dstDir l r inodes).2,
        isCopyOp e = true ∧ eventInode e = some i := by
  intro inodes
  induction inodes with
  | nil => intro r i hi; simp at hi
  | cons j rest ih =>
      intro r i hi
      rcases List.mem_cons.mp hi with rfl | hi'
      · obtain ⟨tail, htail⟩ := copyInode1_head_event follow fuel srcDir dstDir l r i
        refine ⟨(if ((lookupNode l i).bind dirEntriesOf).isNone
            then Event.copyfileOp srcDir dstDir i follow
            else Event.copytreeOp srcDir dstDir i (!follow) true true), ?_, ?_, ?_⟩
        · simp only [copy_inodes, List.mem_append]
          exact Or.inl (by rw [htail]; simp)
        · split <;> simp [isCopyOp]
        · split <;> simp [eventInode]
      · obtain ⟨e, he, hop, hin⟩ := ih (copyInode1 follow fuel srcDir dstDir l r j).1 i hi'
        exact ⟨e, by simp [copy_inodes, List.mem_append]; exact Or.inr he, hop, hin⟩

theorem op_sets_not_funny (byContents : Bool) (l r : Listing) (i : String)
    (h : i ∈ (dircmp_level byContents l r).right_only ∨
      i ∈ (dircmp_level byContents l r).left_only ∨
      i ∈ (dircmp_level byContents l r).diff_files) :
    ¬ i ∈ (dircmp_level byContents l r).funny_files ∧
    ¬ i ∈ (dircmp_level byContents l r).common_funny := by
  simp only [mem_level_right_only, mem_level_left_only, mem_level_diff_files,
    mem_level_funny_files, mem_level_common_funny] at *
  constructor <;> intro hc <;> rcases h with h | h | h <;> simp_all

/-- C4: at every level the executor first only warns about funny entries,
then removes every `rightOnly` name, then copies every `leftOnly` name,
then rewrites every `diffEntries` name, and finally hands each common
subdirectory to a recursive `mirror_dircmp` call with the same options: the
trace decomposes in exactly this order, the mutating events of each segment
are removal respectively copy calls whose entry names come from the
corresponding set, and no event of the level names a funny entry. -/
theorem c4_pass_processing_order (byContents follow : Bool) (fuel : Nat)
    (lp rp : String) (l r : Listing) :
    ∃ evW evR evL evD evS,
      (mirror_dircmp byContents follow false (fuel + 1) lp rp l r).2 =
        evW ++ evR ++ evL ++ evD ++ evS ∧
      (∀ e ∈ evW, isMutation e = false) ∧
      (∀ e ∈ evR, isMutation e = true → isRemoveOp e = true ∧
        ∃ i ∈ (dircmp_level byContents l r).right_only, eventInode e = some i) ∧
      (∀ i ∈ (dircmp_level byContents l r).right_only,
        ∃ e ∈ evR, isRemoveOp e = true ∧ eventInode e = some i) ∧
      (∀ e ∈ evL, isMutation e = true → isCopyOp e = true ∧
        ∃ i ∈ (dircmp_level byContents l r).left_only, eventInode e = some i) ∧
      (∀ i ∈ (dircmp_level byContents l r).left_only,
        ∃ e ∈ evL, isCopyOp e = true ∧ eventInode e = some i) ∧
      (∀ e ∈ evD, isMutation e = true → isCopyOp e = true ∧
        ∃ i ∈ (dircmp_level byContents l r).diff_files, eventInode e = some i) ∧
      (∀ i ∈ (dircmp_level byContents l r).diff_files,
        ∃ e ∈ evD, isCopyOp e = true ∧ eventInode e = some i) ∧
      (∀ e ∈ evR ++ evL ++ evD, ∀ i, eventInode e = some i →
        ¬ i ∈ (dircmp_level byContents l r).funny_files ∧
        ¬ i ∈ (dircmp_level byContents l r).common_funny) ∧
      (∃ racc : Listing,
        evS = (if (dircmp_level byContents l r).common_dirs ≠ [] then
            Event.logSubdirsSet lp (dircmp_level byContents l r).common_dirs ::
              (mirrorSubdirs
                (fun a b x y => mirror_dircmp byContents follow false fuel a b x y)
                lp rp l (dircmp_level byContents l r).common_dirs (racc, [])).2
          else [])) := by
  rw [mirror_dircmp_succ]
  simp only [mirrorLevel, Bool.not_false, if_true]
  refine ⟨_, _, _, _, _, rfl, ?_, ?_, ?_, ?_, ?_, ?_, ?_, ?_, ?_⟩
  · intro e he
    have hsh : e = Event.warnFunnyFiles lp (dircmp_level byContents l r).funny_files ∨
        e = Event.warnCommonFunny lp (dircmp_level byContents l r).common_funny := by
      rcases List.mem_append.mp he with h | h
      · exact Or.inl (by revert h; split <;> simp)
      · exact Or.inr (by revert h; split <;> simp)
    rcases hsh with rfl | rfl <;> rfl
  · intro e he hmut
    by_cases hro : (dircmp_level byContents l r).right_only = []
    · simp [hro] at he
    · simp only [hro, ne_eq, not_false_iff, if_true, if_pos] at he
      rcases List.mem_cons.mp he with rfl | he'
      · simp [isMutation] at hmut
      · obtain ⟨i, hi, hsh⟩ := remove_inodes_event_shape rp _ r e he'
        rcases hsh with rfl | rfl | rfl
        · exact ⟨rfl, i, hi, rfl⟩
        · exact ⟨rfl, i, hi, rfl⟩
        · simp [isMutation] at hmut
  · intro i hi
    have hro : (dircmp_level byContents l r).right_only ≠ [] := by
      intro hh; rw [hh] at hi; simp at hi
    obtain ⟨e, he, hop, hin⟩ := remove_inodes_coverage rp _ r i hi
    exact ⟨e, by simp [hro]; exact Or.inr he, hop, hin⟩
  · intro e he hmut
    by_cases hlo : (dircmp_level byContents l r).left_only = []
    · simp [hlo] at he
    · simp only [hlo, ne_eq, not_false_iff, if_true, if_pos] at he
      rcases List.mem_cons.mp he with rfl | he'
      · simp [isMutation] at hmut
      · obtain ⟨i, hi, hsh⟩ := copy_inodes_event_shape follow fuel lp rp l _ _ e he'
        rcases hsh with rfl | rfl | rfl
        · exact ⟨rfl, i, hi, rfl⟩
        · exact ⟨rfl, i, hi, rfl⟩
        · simp [isMutation] at hmut
  · intro i hi
    have hlo : (dircmp_level byContents l r).left_only ≠ [] := by
      intro hh; rw [hh] at hi; simp at hi
    obtain ⟨e, he, hop, hin⟩ := copy_inodes_coverage follow fuel lp rp l _ _ i hi
    exact ⟨e, by simp [hlo]; exact Or.inr he, hop, hin⟩
  · intro e he hmut
    by_cases hdf : (dircmp_level byContents l r).diff_files = []
    · simp [hdf] at he
    · simp only [hdf, ne_eq, not_false_iff, if_true, if_pos] at he
      rcases List.mem_cons.mp he with rfl | he'
      · simp [isMutation] at hmut
      · obtain ⟨i, hi, hsh⟩ := copy_inodes_event_shape follow fuel lp rp l _ _ e he'
        rcases hsh with rfl | rfl | rfl
        · exact ⟨rfl, i, hi, rfl⟩
        · exact ⟨rfl, i, hi, rfl⟩
        · simp [isMutation] at hmut
  · intro i hi
    have hdf : (dircmp_level byContents l r).diff_files ≠ [] := by
      intro hh; rw [hh] at hi; simp at hi
    obtain ⟨e, he, hop, hin⟩ := copy_inodes_coverage follow fuel lp rp l _ _ i hi
    exact ⟨e, by simp [hdf]; exact Or.inr he, hop, hin⟩
  · intro e he i hin
    have hset : i ∈ (dircmp_level byContents l r).right_only ∨
        i ∈ (dircmp_level byContents l r).left_only ∨
        i ∈ (dircmp_level byContents l r).diff_files := by
      rcases List.mem_append.mp he with he' | heD
      · rcases List.mem_append.mp he' with heR | heL
        · by_cases hro : (dircmp_level byContents l r).right_only = []
          · simp [hro] at heR
          · simp only [hro, ne_eq, not_false_iff, if_true, if_pos] at heR
            rcases List.mem_cons.mp heR with rfl | heR'
            · simp [eventInode] at hin
            · obtain ⟨i', hi', hsh⟩ := remove_inodes_event_shape rp _ r e heR'
              rcases hsh with rfl | rfl | rfl <;>
                (simp [eventInode] at hin; subst hin; exact Or.inl hi')
        · by_cases hlo : (dircmp_level byContents l r).left_only = []
          · simp [hlo] at heL
          · simp only [hlo, ne_eq, not_false_iff, if_true, if_pos] at heL
            rcases List.mem_cons.mp heL with rfl | heL'
            · simp [eventInode] at hin
            · obtain ⟨i', hi', hsh⟩ := copy_inodes_event_shape follow fuel lp rp l _ _ e heL'
              rcases hsh with rfl | rfl | rfl <;>
                (simp [eventInode] at hin; subst hin; exact Or.inr (Or.inl hi'))
      · by_cases hdf : (dircmp_level byContents l r).diff_files = []
        · simp [hdf] at heD
        · simp only [hdf, ne_eq, not_false_iff, if_true, if_pos] at heD
          rcases List.mem_cons.mp heD with rfl | heD'
          · simp [eventInode] at hin
          · obtain ⟨i', hi', hsh⟩ := copy_inodes_event_shape follow fuel lp rp l _ _ e heD'
            rcases hsh with rfl | rfl | rfl <;>
              (simp [eventInode] at hin; subst hin; exact Or.inr (Or.inr hi'))
    exact op_sets_not_funny byContents l r i hset
  · by_cases hcd : (dircmp_level byContents l r).common_dirs = []
    · exact ⟨r, by simp [hcd]⟩
    · simp only [hcd, ne_eq, not_false_iff, if_true]
      exact ⟨_, rfl⟩

/-- C4 witness: the ordering theorem applied at one concrete level with a
removal and a copy, recovering the removal event for the stale name. -/
theorem c4_pass_processing_order_witness :
    ∃ e, isRemoveOp e = true ∧ eventInode e = some "old" := by
  have h := c4_pass_processing_order false false 1 "s" "t"
    [("a", FSNode.file 1 1 [1])] [("old", FSNode.file 2 2 [2])]
  obtain ⟨evW, evR, evL, evD, evS, _, _, _, hcov, _⟩ := h
  obtain ⟨e, _, hop, hin⟩ := hcov "old" (by decide)
  exact ⟨e, hop, hin⟩

theorem lookup_mem {l : Listing} {i : String} {v : FSNode}
    (h : lookupNode l i = some v) : (i, v) ∈ l := by
  induction l with
  | nil => simp [lookupNode] at h
  | cons e rest ih =>
      by_cases he : e.1 = i
      · simp only [lookupNode, he, if_true, Option.some.injEq] at h
        exact List.mem_cons.mpr (Or.inl (by rw [← he, ← h]))
      · simp only [lookupNode, he, if_false] at h
        exact List.mem_cons.mpr (Or.inr (ih h))

theorem lookup_insertEntry_self (r : Listing) (i : String) (v : FSNode) :
    lookupNode (insertEntry r i v) i = some v := by
  induction r with
  | nil => simp [insertEntry, lookupNode]
  | cons e rest ih =>
      by_cases he : e.1 = i <;> simp [insertEntry, lookupNode, he, ih]

theorem lookup_insertEntry_ne (r : Listing) {i x : String} (v : FSNode) (hx : x ≠ i) :
    lookupNode (insertEntry r i v) x = lookupNode r x := by
  have hxi : ¬ x = i := hx
  have hix : ¬ i = x := fun h => hx h.symm
  induction r with
  | nil => simp [insertEntry, lookupNode, hix]
  | cons e rest ih =>
      by_cases he : e.1 = i
      · simp [insertEntry, lookupNode, he, hix, hxi]
      · by_cases hex : e.1 = x <;>
          simp [insertEntry, lookupNode, he, hex, hxi, hix, ih]

theorem lookup_eraseEntry_ne (r : Listing) {i x : String} (hx : x ≠ i) :
    lookupNode (eraseEntry r i) x = lookupNode r x := by
  have hxi : ¬ x = i := hx
  have hix : ¬ i = x := fun h => hx h.symm
  induction r with
  | nil => simp [eraseEntry]
  | cons e rest ih =>
      by_cases he : e.1 = i
      · simp [eraseEntry, lookupNode, he, hix, hxi]
      · by_cases hex : e.1 = x <;>
          simp [eraseEntry, lookupNode, he, hex, hxi, hix, ih]

theorem names_eraseEntry_sublist (r : Listing) (i : String) :
    (listdirNames (eraseEntry r i)).Sublist (listdirNames r) := by
  induction r with
  | nil => simp [eraseEntry]
  | cons e rest ih =>
      by_cases he : e.1 = i
      · simp only [eraseEntry, he, if_true]
        exact (List.sublist_cons_self _ _)
      · simp only [eraseEntry, he, if_false, listdirNames, List.map_cons]
        exact List.Sublist.cons₂ _ ih

theorem lookup_eraseEntry_self {r : Listing} {i : String}
    (hnd : (listdirNames r).Nodup) : lookupNode (eraseEntry r i) i = none := by
  induction r with
  | nil => simp [eraseEntry, lookupNode]
  | cons e rest ih =>
      simp only [listdirNames, List.map_cons, List.nodup_cons] at hnd
      by_cases he : e.1 = i
      · simp only [eraseEntry, he, if_true]
        rw [lookupNode_eq_none_iff]
        rw [he] at hnd
        exact hnd.1
      · simp [eraseEntry, lookupNode, he, ih hnd.2]

theorem lookup_updateEntry_ne (r : Listing) {i x : String} (v : FSNode) (hx : x ≠ i) :
    lookupNode (updateEntry r i v) x = lookupNode r x := by
  have hxi : ¬ x = i := hx
  have hix : ¬ i = x := fun h => hx h.symm
  induction r with
  | nil => simp [updateEntry]
  | cons e rest ih =>
      by_cases he : e.1 = i
      · simp [updateEntry, lookupNode, he, hix, hxi]
      · by_cases hex : e.1 = x <;>
          simp [updateEntry, lookupNode, he, hex, hxi, hix, ih]

theorem lookup_updateEntry_present {r : Listing} {i : String} {w : FSNode} (v : FSNode)
    (h : lookupNode r i = some w) :
    lookupNode (updateEntry r i v) i = some v := by
  induction r with
  | nil => simp [lookupNode] at h
  | cons e rest ih =>
      by_cases he : e.1 = i
      · simp [updateEntry, lookupNode, he]
      · simp only [lookupNode, he, if_false] at h
        simp [updateEntry, lookupNode, he, ih h]

theorem mem_names_insertEntry {r : Listing} {i x : String} {v : FSNode} :
    x ∈ listdirNames (insertEntry r i v) ↔ x = i ∨ x ∈ listdirNames r := by
  induction r with
  | nil => simp [insertEntry, listdirNames]
  | cons e rest ih =>
      by_cases he : e.1 = i
      · subst he
        simp [insertEntry, listdirNames]
        try tauto
      · simp [insertEntry, he, listdirNames] at ih ⊢
        try tauto

theorem names_updateEntry (r : Listing) (i : String) (v : FSNode) :
    listdirNames (updateEntry r i v) = listdirNames r := by
  induction r with
  | nil => simp [updateEntry]
  | cons e rest ih =>
      by_cases he : e.1 = i
      · simp [updateEntry, he, listdirNames]
      · simp [updateEntry, he, listdirNames] at ih ⊢
        exact ih

theorem nodup_names_insertEntry {r : Listing} (i : String) (v : FSNode)
    (h : (listdirNames r).Nodup) : (listdirNames (insertEntry r i v)).Nodup := by
  induction r with
  | nil => simp [insertEntry, listdirNames]
  | cons e rest ih =>
      simp only [listdirNames, List.map_cons, List.nodup_cons] at h
      by_cases he : e.1 = i
      · subst he
        rw [show insertEntry (e :: rest) e.1 v = (e.1, v) :: rest from by simp [insertEntry]]
        simp only [listdirNames, List.map_cons, List.nodup_cons]
        exact h
      · have hni : ¬ e.1 ∈ listdirNames (insertEntry rest i v) := by
          rw [mem_names_insertEntry]
          push_neg
          exact ⟨he, h.1⟩
        simp only [insertEntry, he, if_false, listdirNames, List.map_cons, List.nodup_cons]
        exact ⟨hni, ih h.2⟩

theorem nodup_names_eraseEntry {r : Listing} (i : String)
    (h : (listdirNames r).Nodup) : (listdirNames (eraseEntry r i)).Nodup :=
  (names_eraseEntry_sublist r i).nodup h

theorem good_nodup {f : Nat} {r : Listing} (h : goodListing (f + 1) r = true) :
    (listdirNames r).Nodup := by
  simp only [goodListing, Bool.and_eq_true, decide_eq_true_eq] at h
  exact h.1

theorem good_entry {f : Nat} {r : Listing} (h : goodListing (f + 1) r = true)
    {i : String} {v : FSNode} (hm : (i, v) ∈ r) :
    (∃ mt pm c, v = FSNode.file mt pm c) ∨
      (∃ es, v = FSNode.dir es ∧ goodListing f es = true) := by
  simp only [goodListing, Bool.and_eq_true, decide_eq_true_eq, List.all_eq_true] at h
  have hv := h.2 (i, v) hm
  cases v with
  | file mt pm c => exact Or.inl ⟨mt, pm, c, rfl⟩
  | dir es => exact Or.inr ⟨es, rfl, by simpa using hv⟩
  | symlinkFile t mt pm c => simp at hv
  | symlinkDir t es => simp at hv
  | symlinkDangling t => simp at hv
  | special => simp at hv
  | broken => simp at hv

theorem good_tail {f : Nat} {e : String × FSNode} {rest : Listing}
    (h : goodListing (f + 1) (e :: rest) = true) : goodListing (f + 1) rest = true := by
  simp only [goodListing, Bool.and_eq_true, decide_eq_true_eq, List.all_eq_true,
    listdirNames, List.map_cons, List.nodup_cons, List.mem_cons] at h ⊢
  exact ⟨h.1.2, fun e' he' => h.2 e' (Or.inr he')⟩

theorem eraseEntry_sublist (r : Listing) (i : String) : (eraseEntry r i).Sublist r := by
  induction r with
  | nil => simp [eraseEntry]
  | cons e rest ih =>
      by_cases he : e.1 = i
      · simp only [eraseEntry, he, if_true]
        exact List.sublist_cons_self _ _
      · simp only [eraseEntry, he, if_false]
        exact List.Sublist.cons₂ _ ih

theorem good_eraseEntry {f : Nat} {r : Listing} (i : String)
    (h : goodListing (f + 1) r = true) : goodListing (f + 1) (eraseEntry r i) = true := by
  simp only [goodListing, Bool.and_eq_true, decide_eq_true_eq, List.all_eq_true] at h ⊢
  refine ⟨nodup_names_eraseEntry i h.1, fun e he => h.2 e ?_⟩
  exact (eraseEntry_sublist r i).subset he

theorem filecmp_cmp_self_file (sh : Bool) (mt pm : Nat) (c : List Nat) :
    filecmp_cmp sh (FSNode.file mt pm c) (FSNode.file mt pm c) = some true := by
  cases sh <;> simp [filecmp_cmp, fileSigOf, contentOf]

theorem cmpAt_congr_right {m r : Listing} {x : String}
    (h : lookupNode m x = lookupNode r x) (sh : Bool) (l : Listing) :
    cmpAt sh l m x = cmpAt sh l r x := by
  simp [cmpAt, h]

theorem phase2_congr_right {m r : Listing} {x : String}
    (h : lookupNode m x = lookupNode r x) (l : Listing) :
    phase2Type l m x = phase2Type l r x := by
  simp [phase2Type, h]

theorem nodup_insertSorted {x : String} {s : List String} (hx : ¬ x ∈ s)
    (hs : s.Nodup) : (insertSorted x s).Nodup := by
  induction s with
  | nil => simp [insertSorted]
  | cons y ys ih =>
      simp only [List.mem_cons, not_or] at hx
      rcases List.nodup_cons.mp hs with ⟨hy, hys⟩
      by_cases h : nameLe x y = true
      · simp only [insertSorted, h, if_true]
        exact List.nodup_cons.mpr ⟨by simp [hx.1, hx.2], hs⟩
      · simp only [insertSorted, h, if_false]
        refine List.nodup_cons.mpr ⟨?_, ih hx.2 hys⟩
        rw [mem_insertSorted]
        push_neg
        exact ⟨fun hh => hx.1 hh.symm, hy⟩

theorem nodup_sortNames {s : List String} (hs : s.Nodup) : (sortNames s).Nodup := by
  induction s with
  | nil => simp [sortNames]
  | cons x xs ih =>
      rcases List.nodup_cons.mp hs with ⟨hx, hxs⟩
      rw [sortNames_cons]
      exact nodup_insertSorted (fun hh => hx (mem_sortNames.mp hh)) (ih hxs)

theorem nodup_filteredSorted {l : Listing} (h : (listdirNames l).Nodup) :
    (filteredSorted l).Nodup :=
  nodup_sortNames (h.filter _)

theorem copytree_id (sym ign : Bool) :
    ∀ (fuel : Nat) (es : Listing), goodListing fuel es = true →
      copytree_model sym ign fuel es = (es, false) := by
  intro fuel
  induction fuel with
  | zero => intro es h; simp [goodListing] at h
  | succ f ihf =>
      intro es h
      induction es with
      | nil => rfl
      | cons e rest ihes =>
          have hrest := ihes (good_tail h)
          obtain ⟨n0, v0⟩ := e
          rcases good_entry h (List.mem_cons_self _ _) with ⟨mt, pm, c, hv⟩ | ⟨sub, hv, hgsub⟩
          · subst hv
            have hstep : copytree_model sym ign (f + 1) ((n0, FSNode.file mt pm c) :: rest) =
                ((n0, FSNode.file mt pm c) :: (copytree_model sym ign (f + 1) rest).1,
                  (copytree_model sym ign (f + 1) rest).2) := rfl
            rw [hstep, hrest]
          · subst hv
            have hstep : copytree_model sym ign (f + 1) ((n0, FSNode.dir sub) :: rest) =
                ((n0, FSNode.dir (copytree_model sym ign f sub).1) ::
                    (copytree_model sym ign (f + 1) rest).1,
                  (copytree_model sym ign (f + 1) rest).2 ||
                    (copytree_model sym ign f sub).2) := rfl
            rw [hstep, hrest, ihf sub hgsub]
            rfl

theorem removeInode1_good {f : Nat} {r : Listing} (d : String) (i : String)
    (h : goodListing (f + 1) r = true) :
    (removeInode1 d r i).1 = eraseEntry r i ∨
      ((removeInode1 d r i).1 = r ∧ lookupNode r i = none) := by
  rcases hl : lookupNode r i with _ | v
  · exact Or.inr ⟨by simp [removeInode1, hl], rfl⟩
  · rcases good_entry h (lookup_mem hl) with ⟨mt, pm, c, rfl⟩ | ⟨es, rfl, _⟩
    · exact Or.inl (by simp [removeInode1, hl])
    · exact Or.inl (by simp [removeInode1, hl])

theorem remove_inodes_good (d : String) (f : Nat) :
    ∀ (inodes : List String) (r : Listing), goodListing (f + 1) r = true →
      (∀ x ∈ inodes, lookupNode (remove_inodes d r inodes).1 x = none) ∧
      (∀ x, ¬ x ∈ inodes →
        lookupNode (remove_inodes d r inodes).1 x = lookupNode r x) ∧
      goodListing (f + 1) (remove_inodes d r inodes).1 = true := by
  intro inodes
  induction inodes with
  | nil => exact fun r h => ⟨by simp, fun x _ => rfl, h⟩
  | cons i rest ih =>
      intro r h
      have hres : (remove_inodes d r (i :: rest)).1 =
          (remove_inodes d (removeInode1 d r i).1 rest).1 := rfl
      rcases removeInode1_good d i h with h1 | ⟨h1, hnone⟩
      · have hgood1 : goodListing (f + 1) (removeInode1 d r i).1 = true := by
          rw [h1]; exact good_eraseEntry i h
        obtain ⟨ihA, ihB, ihC⟩ := ih (removeInode1 d r i).1 hgood1
        refine ⟨?_, ?_, by rw [hres]; exact ihC⟩
        · intro x hx
          rcases List.mem_cons.mp hx with rfl | hx'
          · by_cases hxr : x ∈ rest
            · rw [hres]; exact ihA x hxr
            · rw [hres, ihB x hxr, h1]
              exact lookup_eraseEntry_self (good_nodup h)
          · rw [hres]; exact ihA x hx'
        · intro x hx
          simp only [List.mem_cons, not_or] at hx
          rw [hres, ihB x hx.2, h1, lookup_eraseEntry_ne r hx.1]
      · have hgood1 : goodListing (f + 1) (removeInode1 d r i).1 = true := by
          rw [h1]; exact h
        obtain ⟨ihA, ihB, ihC⟩ := ih (removeInode1 d r i).1 hgood1
        refine ⟨?_, ?_, by rw [hres]; exact ihC⟩
        · intro x hx
          rcases List.mem_cons.mp hx with rfl | hx'
          · by_cases hxr : x ∈ rest
            · rw [hres]; exact ihA x hxr
            · rw [hres, ihB x hxr, h1]; exact hnone
          · rw [hres]; exact ihA x hx'
        · intro x hx
          simp only [List.mem_cons, not_or] at hx
          rw [hres, ihB x hx.2, h1]

theorem copyInode1_good {fuel : Nat} {l : Listing} (follow : Bool) (s d : String)
    (hl : goodListing (fuel + 1) l = true) (r : Listing) {i : String} {v : FSNode}
    (hv : lookupNode l i = some v) :
    (copyInode1 follow fuel s d l r i).1 = insertEntry r i v := by
  rcases good_entry hl (lookup_mem hv) with ⟨mt, pm, c, rfl⟩ | ⟨es, rfl, hges⟩
  · rcases hex : (lookupNode r i).isSome <;>
      simp [copyInode1, hv, dirEntriesOf, copy2_model, hex]
  · simp [copyInode1, hv, dirEntriesOf, copytree_id _ _ fuel es hges]

theorem copy_inodes_good (follow : Bool) (fuel : Nat) (s d : String) (l : Listing)
    (hl : goodListing (fuel + 1) l = true) :
    ∀ (inodes : List String) (r : Listing), (listdirNames r).Nodup →
      (∀ x ∈ inodes, x ∈ listdirNames l →
        lookupNode (copy_inodes follow fuel s d l r inodes).1 x = lookupNode l x) ∧
      (∀ x, ¬ x ∈ inodes →
        lookupNode (copy_inodes follow fuel s d l r inodes).1 x = lookupNode r x) ∧
      (listdirNames (copy_inodes follow fuel s d l r inodes).1).Nodup ∧
      (∀ x, x ∈ listdirNames (copy_inodes follow fuel s d l r inodes).1 →
        x ∈ listdirNames r ∨ x ∈ inodes) ∧
      (∀ x, x ∈ listdirNames r →
        x ∈ listdirNames (copy_inodes follow fuel s d l r inodes).1) := by
  intro inodes
  induction inodes with
  | nil => exact fun r hnd => ⟨by simp, fun x _ => rfl, hnd, fun x hx => Or.inl hx, fun x hx => hx⟩
  | cons i rest ih =>
      intro r hnd
      have hres : (copy_inodes follow fuel s d l r (i :: rest)).1 =
          (copy_inodes follow fuel s d l (copyInode1 follow fuel s d l r i).1 rest).1 := rfl
      rcases hli : lookupNode l i with _ | v
      · have h1 : (copyInode1 follow fuel s d l r i).1 = r := by
          simp [copyInode1, hli]
        obtain ⟨ihA, ihB, ihC, ihD, ihE⟩ := ih (copyInode1 follow fuel s d l r i).1 (by rw [h1]; exact hnd)
        refine ⟨?_, ?_, by rw [hres]; exact ihC, ?_, ?_⟩
        · intro x hx hxl
          rcases List.mem_cons.mp hx with rfl | hx'
          · by_cases hxr : x ∈ rest
            · rw [hres]; exact ihA x hxr hxl
            · rw [lookupNode_eq_none_iff] at hli
              exact absurd hxl hli
          · rw [hres]; exact ihA x hx' hxl
        · intro x hx
          simp only [List.mem_cons, not_or] at hx
          rw [hres, ihB x hx.2, h1]
        · intro x hx
          rw [hres] at hx
          rcases ihD x hx with hx' | hx'
          · rw [h1] at hx'; exact Or.inl hx'
          · exact Or.inr (by simp [hx'])
        · intro x hx
          rw [hres]
          exact ihE x (by rw [h1]; exact hx)
      · have h1 : (copyInode1 follow fuel s d l r i).1 = insertEntry r i v :=
          copyInode1_good follow s d hl r hli
        have hnd1 : (listdirNames (copyInode1 follow fuel s d l r i).1).Nodup := by
          rw [h1]; exact nodup_names_insertEntry i v hnd
        obtain ⟨ihA, ihB, ihC, ihD, ihE⟩ := ih (copyInode1 follow fuel s d l r i).1 hnd1
        refine ⟨?_, ?_, by rw [hres]; exact ihC, ?_, ?_⟩
        · intro x hx hxl
          rcases List.mem_cons.mp hx with rfl | hx'
          · by_cases hxr : x ∈ rest
            · rw [hres]; exact ihA x hxr hxl
            · rw [hres, ihB x hxr, h1, lookup_insertEntry_self, hli]
          · rw [hres]; exact ihA x hx' hxl
        · intro x hx
          simp only [List.mem_cons, not_or] at hx
          rw [hres, ihB x hx.2, h1, lookup_insertEntry_ne r v hx.1]
        · intro x hx
          rw [hres] at hx
          rcases ihD x hx with hx' | hx'
          · rw [h1] at hx'
            rcases mem_names_insertEntry.mp hx' with rfl | hx''
            · exact Or.inr (by simp)
            · exact Or.inl hx''
          · exact Or.inr (by simp [hx'])
        · intro x hx
          rw [hres]
          refine ihE x ?_
          rw [h1]
          exact mem_names_insertEntry.mpr (Or.inr hx)

theorem mirrorSubdirs_lookup
    (k : String → String → Listing → Listing → Listing × List Event)
    (lp rp : String) (l : Listing) :
    ∀ (names : List String) (m : Listing) (ev : List Event) (x : String),
      names.Nodup →
      (¬ x ∈ names →
        lookupNode (mirrorSubdirs k lp rp l names (m, ev)).1 x = lookupNode m x) ∧
      (x ∈ names →
        lookupNode (mirrorSubdirs k lp rp l names (m, ev)).1 x =
          match lookupNode l x, lookupNode m x with
          | some ln, some rn =>
              match dirEntriesOf ln, dirEntriesOf rn with
              | some les, some res =>
                  some (setDirEntries rn (k (joinPath lp x) (joinPath rp x) les res).1)
              | _, _ => lookupNode m x
          | _, _ => lookupNode m x) := by
  intro names
  induction names with
  | nil =>
      intro m ev x _
      exact ⟨fun _ => rfl, fun h => absurd h (by simp)⟩
  | cons n0 rest ih =>
      intro m ev x hnd
      rcases List.nodup_cons.mp hnd with ⟨hn0, hrest⟩
      simp only [mirrorSubdirs]
      rcases hln : lookupNode l n0 with _ | ln
      · dsimp only
        constructor
        · intro hx
          have hx' : ¬ x ∈ rest := fun hh => hx (List.mem_cons.mpr (Or.inr hh))
          exact (ih m (ev ++ []) x hrest).1 hx'
        · intro hx
          rcases List.mem_cons.mp hx with rfl | hx'
          · rw [(ih m (ev ++ []) x hrest).1 hn0]
            simp [hln]
          · rw [(ih m (ev ++ []) x hrest).2 hx']
      · rcases hrn : lookupNode m n0 with _ | rn
        · dsimp only
          constructor
          · intro hx
            have hx' : ¬ x ∈ rest := fun hh => hx (List.mem_cons.mpr (Or.inr hh))
            exact (ih m (ev ++ []) x hrest).1 hx'
          · intro hx
            rcases List.mem_cons.mp hx with rfl | hx'
            · rw [(ih m (ev ++ []) x hrest).1 hn0]
              simp [hln, hrn]
            · rw [(ih m (ev ++ []) x hrest).2 hx']
        · dsimp only
          rcases hle : dirEntriesOf ln with _ | les
          · dsimp only
            constructor
            · intro hx
              have hx' : ¬ x ∈ rest := fun hh => hx (List.mem_cons.mpr (Or.inr hh))
              exact (ih m (ev ++ []) x hrest).1 hx'
            · intro hx
              rcases List.mem_cons.mp hx with rfl | hx'
              · rw [(ih m (ev ++ []) x hrest).1 hn0]
                simp [hln, hrn, hle]
              · rw [(ih m (ev ++ []) x hrest).2 hx']
          · rcases hre : dirEntriesOf rn with _ | res
            · dsimp only
              constructor
              · intro hx
                have hx' : ¬ x ∈ rest := fun hh => hx (List.mem_cons.mpr (Or.inr hh))
                exact (ih m (ev ++ []) x hrest).1 hx'
              · intro hx
                rcases List.mem_cons.mp hx with rfl | hx'
                · rw [(ih m (ev ++ []) x hrest).1 hn0]
                  simp [hln, hrn, hle, hre]
                · rw [(ih m (ev ++ []) x hrest).2 hx']
            · dsimp only
              have hupd := lookup_updateEntry_present
                (setDirEntries rn (k (joinPath lp n0) (joinPath rp n0) les res).1) hrn
              constructor
              · intro hx
                have hxn0 : x ≠ n0 := fun hh => hx (by rw [hh]; exact List.mem_cons_self _ _)
                have hx' : ¬ x ∈ rest := fun hh => hx (List.mem_cons.mpr (Or.inr hh))
                rw [(ih _ _ x hrest).1 hx']
                exact lookup_updateEntry_ne m _ hxn0
              · intro hx
                rcases List.mem_cons.mp hx with rfl | hx'
                · rw [(ih _ _ x hrest).1 hn0, hupd]
                  simp [hln, hrn, hle, hre]
                · have hxn0 : x ≠ n0 := fun hh => hn0 (hh ▸ hx')
                  rw [(ih _ _ x hrest).2 hx',
                    lookup_updateEntry_ne m _ hxn0]

theorem mirror_result_eq (byContents follow : Bool) (fuel : Nat)
    (lp rp : String) (l r : Listing) :
    (mirror_dircmp byContents follow false (fuel + 1) lp rp l r).1 =
      (mirrorSubdirs (fun a b x y => mirror_dircmp byContents follow false fuel a b x y)
        lp rp l (dircmp_level byContents l r).common_dirs
        ((copy_inodes follow fuel lp rp l
            (copy_inodes follow fuel lp rp l
              (remove_inodes rp r (dircmp_level byContents l r).right_only).1
              (dircmp_level byContents l r).left_only).1
            (dircmp_level byContents l r).diff_files).1, [])).1 := by
  rw [mirror_dircmp_succ]
  simp only [mirrorLevel, Bool.not_false, if_true]
  by_cases h3 : (dircmp_level byContents l r).right_only = [] <;>
    by_cases h4 : (dircmp_level byContents l r).left_only = [] <;>
    by_cases h5 : (dircmp_level byContents l r).diff_files = [] <;>
    by_cases h6 : (dircmp_level byContents l r).common_dirs = [] <;>
    simp [h3, h4, h5, h6, remove_inodes, copy_inodes, mirrorSubdirs]

theorem filecmp_cmp_file_file_ne_none (sh : Bool) (mt pm : Nat) (c : List Nat)
    (mt' pm' : Nat) (c' : List Nat) :
    ¬ filecmp_cmp sh (FSNode.file mt pm c) (FSNode.file mt' pm' c') = none := by
  simp only [filecmp_cmp, fileSigOf, contentOf]
  split_ifs <;> simp

theorem common_dirs_nodup {byContents : Bool} {l r : Listing}
    (h : (listdirNames l).Nodup) : (dircmp_level byContents l r).common_dirs.Nodup := by
  simp only [dircmp_level]
  exact ((nodup_filteredSorted h).filter _).filter _

theorem converged_self (byContents : Bool) :
    ∀ (fuel : Nat) (l : Listing), goodListing fuel l = true →
      converged byContents fuel l l = true := by
  intro fuel
  induction fuel with
  | zero => intro l h; simp [goodListing] at h
  | succ f ih =>
      intro l h
      simp only [converged, Bool.and_eq_true, List.all_eq_true, decide_eq_true_eq]
      refine ⟨⟨fun n hn => hn, fun n hn => hn⟩, fun n hn => ?_⟩
      have hnl : n ∈ listdirNames l := (mem_filteredSorted.mp hn).1
      rw [← lookupNode_isSome_iff] at hnl
      rcases hv : lookupNode l n with _ | v
      · rw [hv] at hnl; simp at hnl
      rcases good_entry h (lookup_mem hv) with ⟨mt, pm, c, rfl⟩ | ⟨es, rfl, hges⟩
      · have hp2 : phase2Type l l n = some StatType.reg := by
          simp [phase2Type, hv, statTypeOf]
        rw [hp2]
        simp [cmpAt, hv, filecmp_cmp_self_file]
      · have hp2 : phase2Type l l n = some StatType.dirT := by
          simp [phase2Type, hv, statTypeOf]
        rw [hp2]
        simp [dirEntriesOf, hv, ih es hges]

theorem phase2_reg_nodes {f : Nat} {l r : Listing}
    (hl : goodListing (f + 1) l = true) (hr : goodListing (f + 1) r = true)
    {x : String} (hx : phase2Type l r x = some StatType.reg) :
    ∃ mt pm c mt' pm' c', lookupNode l x = some (FSNode.file mt pm c) ∧
      lookupNode r x = some (FSNode.file mt' pm' c') := by
  rcases hlx : lookupNode l x with _ | v
  · simp [phase2Type, hlx] at hx
  rcases hrx : lookupNode r x with _ | w
  · simp [phase2Type, hlx, hrx] at hx
  rcases good_entry hl (lookup_mem hlx) with ⟨mt, pm, c, rfl⟩ | ⟨es, rfl, _⟩ <;>
    rcases good_entry hr (lookup_mem hrx) with ⟨mt', pm', c', rfl⟩ | ⟨es', rfl, _⟩
  · exact ⟨mt, pm, c, mt', pm', c', rfl, rfl⟩
  · simp [phase2Type, hlx, hrx, statTypeOf] at hx
  · simp [phase2Type, hlx, hrx, statTypeOf] at hx
  · simp [phase2Type, hlx, hrx, statTypeOf] at hx

theorem phase2_dir_nodes {f : Nat} {l r : Listing}
    (hl : goodListing (f + 1) l = true) (hr : goodListing (f + 1) r = true)
    {x : String} (hx : phase2Type l r x = some StatType.dirT) :
    ∃ les res, lookupNode l x = some (FSNode.dir les) ∧
      lookupNode r x = some (FSNode.dir res) ∧
      goodListing f les = true ∧ goodListing f res = true := by
  rcases hlx : lookupNode l x with _ | v
  · simp [phase2Type, hlx] at hx
  rcases hrx : lookupNode r x with _ | w
  · simp [phase2Type, hlx, hrx] at hx
  rcases good_entry hl (lookup_mem hlx) with ⟨mt, pm, c, rfl⟩ | ⟨es, rfl, hges⟩ <;>
    rcases good_entry hr (lookup_mem hrx) with ⟨mt', pm', c', rfl⟩ | ⟨es', rfl, hges'⟩
  · simp [phase2Type, hlx, hrx, statTypeOf] at hx
  · simp [phase2Type, hlx, hrx, statTypeOf] at hx
  · simp [phase2Type, hlx, hrx, statTypeOf] at hx
  · exact ⟨es, es', rfl, rfl, hges, hges'⟩

theorem converged_of_lookup_spec (byContents : Bool) (f : Nat) (l r m : Listing)
    (hl : goodListing (f + 1) l = true) (hr : goodListing (f + 1) r = true)
    (hRO : ∀ x ∈ (dircmp_level byContents l r).right_only, lookupNode m x = none)
    (hLO : ∀ x ∈ (dircmp_level byContents l r).left_only,
      lookupNode m x = lookupNode l x)
    (hDF : ∀ x ∈ (dircmp_level byContents l r).diff_files,
      lookupNode m x = lookupNode l x)
    (hFr : ∀ x, ¬ x ∈ (dircmp_level byContents l r).right_only →
      ¬ x ∈ (dircmp_level byContents l r).left_only →
      ¬ x ∈ (dircmp_level byContents l r).diff_files →
      ¬ x ∈ (dircmp_level byContents l r).common_dirs →
      lookupNode m x = lookupNode r x)
    (hCD : ∀ x ∈ (dircmp_level byContents l r).common_dirs,
      ∀ les res, lookupNode l x = some (FSNode.dir les) →
        lookupNode r x = some (FSNode.dir res) →
        ∃ zs, lookupNode m x = some (FSNode.dir zs) ∧
          converged byContents f les zs = true) :
    converged byContents (f + 1) l m = true := by
  have hFF : ∀ x, ¬ x ∈ (dircmp_level byContents l r).funny_files := by
    intro x hx
    obtain ⟨⟨_, hreg⟩, hcmp⟩ := mem_level_funny_files.mp hx
    obtain ⟨mt, pm, c, mt', pm', c', hlx, hrx⟩ := phase2_reg_nodes hl hr hreg
    simp only [cmpAt, hlx, hrx] at hcmp
    exact filecmp_cmp_file_file_ne_none _ _ _ _ _ _ _ hcmp
  have hmSF : ∀ x ∈ (dircmp_level byContents l r).same_files,
      lookupNode m x = lookupNode r x := by
    intro x hx
    obtain ⟨⟨⟨hxfl, hxfr⟩, hreg⟩, hcmp⟩ := mem_level_same_files.mp hx
    refine hFr x (fun h => (mem_level_right_only.mp h).2 hxfl)
      (fun h => (mem_level_left_only.mp h).2 hxfr) ?_ ?_
    · intro h
      have h2 := (mem_level_diff_files.mp h).2
      rw [hcmp] at h2
      simp at h2
    · intro h
      have h2 := (mem_level_common_dirs.mp h).2
      rw [hreg] at h2
      simp at h2
  have hmCF : ∀ x ∈ (dircmp_level byContents l r).common_funny,
      lookupNode m x = lookupNode r x := by
    intro x hx
    obtain ⟨⟨hxfl, hxfr⟩, hnd, hnr⟩ := mem_level_common_funny.mp hx
    exact hFr x (fun h => (mem_level_right_only.mp h).2 hxfl)
      (fun h => (mem_level_left_only.mp h).2 hxfr)
      (fun h => hnr (mem_level_diff_files.mp h).1.2)
      (fun h => hnd (mem_level_common_dirs.mp h).2)
  simp only [converged, Bool.and_eq_true, List.all_eq_true, decide_eq_true_eq]
  refine ⟨⟨?_, ?_⟩, ?_⟩
  · intro n hn
    have hnothide : ¬ n ∈ hideNames ++ scriptIgnore := (mem_filteredSorted.mp hn).2
    have hnl : n ∈ listdirNames l := (mem_filteredSorted.mp hn).1
    have hcases := (level_union_helper byContents l r n).mp
      (Or.inl (by rw [level_left_list]; exact hn))
    have hsome : ¬ lookupNode m n = none := by
      rcases hcases with hc | hc | hc | hc | hc | hc | hc
      · rw [hLO n hc, lookupNode_eq_none_iff]
        exact fun h => h hnl
      · exact absurd hn (mem_level_right_only.mp hc).2
      · rw [hmSF n hc, lookupNode_eq_none_iff]
        have hfr := (mem_level_same_files.mp hc).1.1.2
        exact fun h => h (mem_filteredSorted.mp hfr).1
      · rw [hDF n hc, lookupNode_eq_none_iff]
        exact fun h => h hnl
      · exact absurd hc (hFF n)
      · rw [hmCF n hc, lookupNode_eq_none_iff]
        have hfr := (mem_level_common_funny.mp hc).1.2
        exact fun h => h (mem_filteredSorted.mp hfr).1
      · obtain ⟨les, res, hlx, hrx, _, _⟩ :=
          phase2_dir_nodes hl hr (mem_level_common_dirs.mp hc).2
        obtain ⟨zs, hz, _⟩ := hCD n hc les res hlx hrx
        rw [hz]
        simp
    by_cases hmem : n ∈ listdirNames m
    · exact mem_filteredSorted.mpr ⟨hmem, hnothide⟩
    · exact absurd (lookupNode_eq_none_iff.mpr hmem) hsome
  · intro n hn
    by_cases hfl : n ∈ filteredSorted l
    · exact hfl
    exfalso
    have hnothide : ¬ n ∈ hideNames ++ scriptIgnore := (mem_filteredSorted.mp hn).2
    have hnM : n ∈ listdirNames m := (mem_filteredSorted.mp hn).1
    by_cases hfr : n ∈ filteredSorted r
    · have hx : n ∈ (dircmp_level byContents l r).right_only :=
        mem_level_right_only.mpr ⟨hfr, hfl⟩
      have hnone := hRO n hx
      rw [lookupNode_eq_none_iff] at hnone
      exact hnone hnM
    · have heq : lookupNode m n = lookupNode r n := by
        refine hFr n ?_ ?_ ?_ ?_
        · exact fun h => hfr (mem_level_right_only.mp h).1
        · exact fun h => hfl (mem_level_left_only.mp h).1
        · exact fun h => hfl (mem_level_diff_files.mp h).1.1.1
        · exact fun h => hfl (mem_level_common_dirs.mp h).1.1
      rw [← lookupNode_isSome_iff, heq, lookupNode_isSome_iff] at hnM
      exact hfr (mem_filteredSorted.mpr ⟨hnM, hnothide⟩)
  · intro n hn
    have hnl : n ∈ listdirNames l := (mem_filteredSorted.mp hn).1
    have hcases := (level_union_helper byContents l r n).mp
      (Or.inl (by rw [level_left_list]; exact hn))
    rcases hcases with hc | hc | hc | hc | hc | hc | hc
    · have hM := hLO n hc
      rcases hv : lookupNode l n with _ | v
      · rw [lookupNode_eq_none_iff] at hv
        exact absurd hnl hv
      rw [hv] at hM
      rcases good_entry hl (lookup_mem hv) with ⟨mt, pm, c, rfl⟩ | ⟨es, rfl, hges⟩
      · simp [phase2Type, statTypeOf, cmpAt, hM, hv, filecmp_cmp_self_file]
      · simp [phase2Type, statTypeOf, dirEntriesOf, hM, hv,
          converged_self byContents f es hges]
    · exact absurd hn (mem_level_right_only.mp hc).2
    · obtain ⟨⟨⟨hxfl, hxfr⟩, hreg⟩, hcmp⟩ := mem_level_same_files.mp hc
      obtain ⟨mt, pm, c, mt', pm', c', hlx, hrx⟩ := phase2_reg_nodes hl hr hreg
      have hM := hmSF n hc
      rw [hrx] at hM
      simp only [cmpAt, hlx, hrx] at hcmp
      simp [phase2Type, statTypeOf, cmpAt, hM, hlx, hcmp]
    · obtain ⟨⟨⟨hxfl, hxfr⟩, hreg⟩, hcmp⟩ := mem_level_diff_files.mp hc
      obtain ⟨mt, pm, c, mt', pm', c', hlx, hrx⟩ := phase2_reg_nodes hl hr hreg
      have hM := hDF n hc
      rw [hlx] at hM
      simp [phase2Type, statTypeOf, cmpAt, hM, hlx, filecmp_cmp_self_file]
    · exact absurd hc (hFF n)
    · obtain ⟨⟨hxfl, hxfr⟩, hnd, hnr⟩ := mem_level_common_funny.mp hc
      have hM := hmCF n hc
      rw [phase2_congr_right hM l]
      rcases hp : phase2Type l r n with _ | t
      · simp [hp]
      · cases t with
        | reg => exact absurd hp hnr
        | dirT => exact absurd hp hnd
        | other => simp [hp]
    · obtain ⟨les, res, hlx, hrx, hgles, hgres⟩ :=
        phase2_dir_nodes hl hr (mem_level_common_dirs.mp hc).2
      obtain ⟨zs, hz, hconv⟩ := hCD n hc les res hlx hrx
      simp [phase2Type, statTypeOf, dirEntriesOf, hz, hlx, hconv]

theorem pass_converges (byContents follow : Bool) :
    ∀ (fuel : Nat) (lp rp : String) (l r : Listing),
      goodListing fuel l = true → goodListing fuel r = true →
      converged byContents fuel l
        (mirror_dircmp byContents follow false fuel lp rp l r).1 = true := by
  intro fuel
  induction fuel with
  | zero => intro lp rp l r hl _; simp [goodListing] at hl
  | succ f ih =>
      intro lp rp l r hl hr
      rw [mirror_result_eq]
      obtain ⟨hRa, hRb, hRg⟩ :=
        remove_inodes_good rp f (dircmp_level byContents l r).right_only r hr
      obtain ⟨hLa, hLb, hLc, hLd, hLe⟩ :=
        copy_inodes_good follow f lp rp l hl (dircmp_level byContents l r).left_only _
          (good_nodup hRg)
      obtain ⟨hDa, hDb, hDc, hDd, hDe⟩ :=
        copy_inodes_good follow f lp rp l hl (dircmp_level byContents l r).diff_files _ hLc
      have hcdnd : (dircmp_level byContents l r).common_dirs.Nodup :=
        common_dirs_nodup (good_nodup hl)
      have hsub := mirrorSubdirs_lookup
        (fun a b x y => mirror_dircmp byContents follow false f a b x y) lp rp l
      refine converged_of_lookup_spec byContents f l r _ hl hr ?_ ?_ ?_ ?_ ?_
      · intro x hx
        have hxfl : ¬ x ∈ filteredSorted l := (mem_level_right_only.mp hx).2
        have h2 : ¬ x ∈ (dircmp_level byContents l r).left_only :=
          fun h => hxfl (mem_level_left_only.mp h).1
        have h3 : ¬ x ∈ (dircmp_level byContents l r).diff_files :=
          fun h => hxfl (mem_level_diff_files.mp h).1.1.1
        have h4 : ¬ x ∈ (dircmp_level byContents l r).common_dirs :=
          fun h => hxfl (mem_level_common_dirs.mp h).1.1
        rw [(hsub _ _ _ x hcdnd).1 h4, hDb x h3, hLb x h2, hRa x hx]
      · intro x hx
        have hlr := mem_level_left_only.mp hx
        have h3 : ¬ x ∈ (dircmp_level byContents l r).diff_files :=
          fun h => hlr.2 (mem_level_diff_files.mp h).1.1.2
        have h4 : ¬ x ∈ (dircmp_level byContents l r).common_dirs :=
          fun h => hlr.2 (mem_level_common_dirs.mp h).1.2
        rw [(hsub _ _ _ x hcdnd).1 h4, hDb x h3,
          hLa x hx (mem_filteredSorted.mp hlr.1).1]
      · intro x hx
        obtain ⟨⟨⟨hxfl, hxfr⟩, hreg⟩, hcmp⟩ := mem_level_diff_files.mp hx
        have h4 : ¬ x ∈ (dircmp_level byContents l r).common_dirs := by
          intro h
          have h2 := (mem_level_common_dirs.mp h).2
          rw [hreg] at h2
          simp at h2
        rw [(hsub _ _ _ x hcdnd).1 h4, hDa x hx (mem_filteredSorted.mp hxfl).1]
      · intro x h1 h2 h3 h4
        rw [(hsub _ _ _ x hcdnd).1 h4, hDb x h3, hLb x h2, hRb x h1]
      · intro x hx les res hlx hrx
        obtain ⟨les', res', hlx', hrx', hgles, hgres⟩ :=
          phase2_dir_nodes hl hr (mem_level_common_dirs.mp hx).2
        rw [hlx] at hlx'
        rw [hrx] at hrx'
        have hles : les = les' := by simpa using hlx'
        have hres : res = res' := by simpa using hrx'
        rw [← hles] at hgles
        rw [← hres] at hgres
        have hxRO : ¬ x ∈ (dircmp_level byContents l r).right_only :=
          fun h => (mem_level_right_only.mp h).2 (mem_level_common_dirs.mp hx).1.1
        have hxLO : ¬ x ∈ (dircmp_level byContents l r).left_only :=
          fun h => (mem_level_left_only.mp h).2 (mem_level_common_dirs.mp hx).1.2
        have hxDF : ¬ x ∈ (dircmp_level byContents l r).diff_files := by
          intro h
          have h2 := (mem_level_diff_files.mp h).1.2
          rw [(mem_level_common_dirs.mp hx).2] at h2
          simp at h2
        have hstep := (hsub ((dircmp_level byContents l r).common_dirs)
            (copy_inodes follow f lp rp l
              (copy_inodes follow f lp rp l
                (remove_inodes rp r (dircmp_level byContents l r).right_only).1
                (dircmp_level byContents l r).left_only).1
              (dircmp_level byContents l r).diff_files).1
            [] x hcdnd).2 hx
        rw [hDb x hxDF, hLb x hxLO, hRb x hxRO] at hstep
        rw [hlx, hrx] at hstep
        simp only [dirEntriesOf, setDirEntries] at hstep
        exact ⟨_, hstep, ih (joinPath lp x) (joinPath rp x) les res hgles hgres⟩

theorem mirrorSubdirs_steady
    (k : String → String → Listing → Listing → Listing × List Event)
    (lp rp : String) (l : Listing) :
    ∀ (names : List String) (m : Listing) (ev : List Event),
      (∀ n ∈ names, ∃ ln rn les res,
        lookupNode l n = some ln ∧ lookupNode m n = some rn ∧
        dirEntriesOf ln = some les ∧ dirEntriesOf rn = some res ∧
        (k (joinPath lp n) (joinPath rp n) les res).1 = res ∧
        (k (joinPath lp n) (joinPath rp n) les res).2.filter isMutation = []) →
      (mirrorSubdirs k lp rp l names (m, ev)).1 = m ∧
      (mirrorSubdirs k lp rp l names (m, ev)).2.filter isMutation =
        ev.filter isMutation := by
  intro names
  induction names with
  | nil => intro m ev _; exact ⟨rfl, rfl⟩
  | cons n0 rest ih =>
      intro m ev hspec
      obtain ⟨ln, rn, les, res, hln, hrn, hdl, hdr, hk1, hk2⟩ :=
        hspec n0 (List.mem_cons_self _ _)
      simp only [mirrorSubdirs, hln, hrn, hdl, hdr]
      rw [hk1, setDirEntries_self hdr, updateEntry_self hrn]
      have hrest := ih m
        (ev ++ (Event.logSubdirEnter (joinPath lp n0) (joinPath rp n0) ::
          (k (joinPath lp n0) (joinPath rp n0) les res).2))
        (fun n hn => hspec n (List.mem_cons_of_mem _ hn))
      refine ⟨hrest.1, ?_⟩
      rw [hrest.2]
      simp [List.filter_append, hk2, isMutation]

theorem converged_level_empty (byContents : Bool) (f : Nat) (l r : Listing)
    (h : converged byContents (f + 1) l r = true) :
    (dircmp_level byContents l r).right_only = [] ∧
    (dircmp_level byContents l r).left_only = [] ∧
    (dircmp_level byContents l r).diff_files = [] ∧
    (dircmp_level byContents l r).funny_files = [] := by
  simp only [converged, Bool.and_eq_true, List.all_eq_true, decide_eq_true_eq] at h
  obtain ⟨⟨hAB, hBA⟩, hC⟩ := h
  refine ⟨?_, ?_, ?_, ?_⟩
  · refine List.eq_nil_iff_forall_not_mem.mpr fun n hn => ?_
    obtain ⟨hfr, hfl⟩ := mem_level_right_only.mp hn
    exact hfl (hBA n hfr)
  · refine List.eq_nil_iff_forall_not_mem.mpr fun n hn => ?_
    obtain ⟨hfl, hfr⟩ := mem_level_left_only.mp hn
    exact hfr (hAB n hfl)
  · refine List.eq_nil_iff_forall_not_mem.mpr fun n hn => ?_
    obtain ⟨⟨⟨hfl, _⟩, hreg⟩, hcmp⟩ := mem_level_diff_files.mp hn
    have hCn := hC n hfl
    rw [hreg] at hCn
    simp at hCn
    rw [hCn] at hcmp
    simp at hcmp
  · refine List.eq_nil_iff_forall_not_mem.mpr fun n hn => ?_
    obtain ⟨⟨⟨hfl, _⟩, hreg⟩, hcmp⟩ := mem_level_funny_files.mp hn
    have hCn := hC n hfl
    rw [hreg] at hCn
    simp at hCn
    rw [hCn] at hcmp
    simp at hcmp

theorem converged_no_ops (byContents follow : Bool) :
    ∀ (fuel : Nat) (lp rp : String) (l r : Listing),
      converged byContents fuel l r = true →
      (mirror_dircmp byContents follow false fuel lp rp l r).1 = r ∧
      (mirror_dircmp byContents follow false fuel lp rp l r).2.filter isMutation
        = [] := by
  intro fuel
  induction fuel with
  | zero => intro lp rp l r h; simp [converged] at h
  | succ f ih =>
      intro lp rp l r h
      obtain ⟨hRO, hLO, hDFe, hFFe⟩ := converged_level_empty byContents f l r h
      simp only [converged, Bool.and_eq_true, List.all_eq_true, decide_eq_true_eq] at h
      obtain ⟨⟨hAB, hBA⟩, hC⟩ := h
      have hspec : ∀ n ∈ (dircmp_level byContents l r).common_dirs,
          ∃ ln rn les res,
            lookupNode l n = some ln ∧ lookupNode r n = some rn ∧
            dirEntriesOf ln = some les ∧ dirEntriesOf rn = some res ∧
            (mirror_dircmp byContents follow false f
              (joinPath lp n) (joinPath rp n) les res).1 = res ∧
            (mirror_dircmp byContents follow false f
              (joinPath lp n) (joinPath rp n) les res).2.filter isMutation = [] := by
        intro n hn
        obtain ⟨⟨hfl, hfr⟩, hdir⟩ := mem_level_common_dirs.mp hn
        have hCn := hC n hfl
        rw [hdir] at hCn
        simp at hCn
        rcases hln : lookupNode l n with _ | ln
        · rw [hln] at hCn; simp at hCn
        rw [hln] at hCn
        simp only [Option.some_bind] at hCn
        rcases hdl : dirEntriesOf ln with _ | les
        · rw [hdl] at hCn; simp at hCn
        rw [hdl] at hCn
        rcases hrn : lookupNode r n with _ | rn
        · rw [hrn] at hCn; simp at hCn
        rw [hrn] at hCn
        simp only [Option.some_bind] at hCn
        rcases hdr : dirEntriesOf rn with _ | res
        · rw [hdr] at hCn; simp at hCn
        rw [hdr] at hCn
        simp at hCn
        obtain ⟨hk1, hk2⟩ := ih (joinPath lp n) (joinPath rp n) les res hCn
        exact ⟨ln, rn, les, res, rfl, rfl, hdl, hdr, hk1, hk2⟩
      obtain ⟨hs1, hs2⟩ := mirrorSubdirs_steady
        (fun a b x y => mirror_dircmp byContents follow false f a b x y) lp rp l
        (dircmp_level byContents l r).common_dirs r [] hspec
      rw [mirror_dircmp_succ]
      by_cases hCF : (dircmp_level byContents l r).common_funny = [] <;>
        by_cases hCD : (dircmp_level byContents l r).common_dirs = [] <;>
        simp [mirrorLevel, hRO, hLO, hDFe, hFFe, hCF, hCD, hs1, hs2, isMutation]

/-- C8 counterexample: the second pass is NOT always operation-free.  With
an empty source and a destination holding a symlink-to-directory under a
stale name, the first non-dry pass completes without any error record: the
name is `right_only`, `Path.is_dir()` is true, and the
`rmtree(ignore_errors=True)` failure on the symbolic link is silently
swallowed, leaving the entry in place.  The immediately following pass
classifies the same name `right_only` again and issues another removal
call, refuting the universally quantified zero-remove/zero-copy claim. -/
theorem c8_counterexample :
    (mirror_dircmp false false false 2 "src" "dst" []
      [("stale", FSNode.symlinkDir "t" [])]).2 =
      [Event.logRemoveSet "dst" ["stale"], Event.rmtreeOp "dst" "stale"] ∧
    (mirror_dircmp false false false 2 "src" "dst" []
      [("stale", FSNode.symlinkDir "t" [])]).1 =
      [("stale", FSNode.symlinkDir "t" [])] ∧
    (mirror_dircmp false false false 2 "src" "dst" []
      (mirror_dircmp false false false 2 "src" "dst" []
        [("stale", FSNode.symlinkDir "t" [])]).1).2.filter isMutation =
      [Event.rmtreeOp "dst" "stale"] := by
  refine ⟨?_, ?_, ?_⟩ <;> rfl

/-- C8, corrected: steady state after one pass holds for well-formed trees,
not for every tree.  For every comparison mode, symlink option and
recursion budget, and every pair of trees built of regular files and
directories with distinct entry names per level and depth within the
budget, running a second non-dry mirror pass immediately after a first one
with an unchanged source performs zero remove and zero copy operations:
re-classifying source against mirrored destination leaves `right_only`,
`left_only`, `diff_files` and `funny_files` all empty (every surviving
common name sits in `same_files`, `common_dirs`, or — for persisting type
conflicts — `common_funny`, which is only warned about), the second pass's
whole event trace contains no `rmtree`/`unlink`/`copytree`/`copy2` call at
any level, and the destination listing is returned unchanged.  For general
destinations the property fails: a silently swallowed `rmtree` failure on a
symlink-to-directory is re-attempted on every pass. -/
theorem c8_second_pass_steady_state (byContents follow : Bool) (fuel : Nat)
    (lp rp lp' rp' : String) (l r : Listing)
    (hl : goodListing fuel l = true) (hr : goodListing fuel r = true) :
    (dircmp_level byContents l
      (mirror_dircmp byContents follow false fuel lp rp l r).1).right_only = [] ∧
    (dircmp_level byContents l
      (mirror_dircmp byContents follow false fuel lp rp l r).1).left_only = [] ∧
    (dircmp_level byContents l
      (mirror_dircmp byContents follow false fuel lp rp l r).1).diff_files = [] ∧
    (dircmp_level byContents l
      (mirror_dircmp byContents follow false fuel lp rp l r).1).funny_files = [] ∧
    (mirror_dircmp byContents follow false fuel lp' rp' l
      (mirror_dircmp byContents follow false fuel lp rp l r).1).2.filter isMutation
        = [] ∧
    (mirror_dircmp byContents follow false fuel lp' rp' l
      (mirror_dircmp byContents follow false fuel lp rp l r).1).1 =
      (mirror_dircmp byContents follow false fuel lp rp l r).1 := by
  cases fuel with
  | zero => simp [goodListing] at hl
  | succ f =>
      have hconv := pass_converges byContents follow (f + 1) lp rp l r hl hr
      obtain ⟨e1, e2, e3, e4⟩ := converged_level_empty byContents f l _ hconv
      obtain ⟨h1, h2⟩ := converged_no_ops byContents follow (f + 1) lp' rp' l _ hconv
      exact ⟨e1, e2, e3, e4, h2, h1⟩

theorem c8_second_pass_steady_state_witness :
    goodListing 2 [("a", FSNode.file 1 420 [104])] = true ∧
    goodListing 2 [("b", FSNode.file 2 420 [5])] = true ∧
    (mirror_dircmp false false false 2 "src" "dst"
      [("a", FSNode.file 1 420 [104])]
      (mirror_dircmp false false false 2 "src" "dst"
        [("a", FSNode.file 1 420 [104])]
        [("b", FSNode.file 2 420 [5])]).1).2.filter isMutation = [] :=
  ⟨by decide, by decide,
    (c8_second_pass_steady_state false false 2 "src" "dst" "src" "dst"
      [("a", FSNode.file 1 420 [104])] [("b", FSNode.file 2 420 [5])]
      (by decide) (by decide)).2.2.2.2.1⟩

end SyncPeriodical
